import Mathlib

/-!
Verification of the bounded-concurrency crawler of the Analystics-Platform.AI
repository (class `ScraperService`, methods `scrapePage`, `extractCategories`,
`getDomain`, `scrapeWebsite`, together with the project-counter driver in
`server/routes.ts`).

The embedding is shallow.  HTML parsing and URL resolution are performed by
external libraries (cheerio and the WHATWG `URL` class) in the source, so a
fetched document is modelled by the data the source extracts from it:

  - `RawPage.titleText` models the string returned by the cheerio query
    for the title element (the empty string when no title element exists);
  - `RawPage.contentText` models the text of the selected content container
    before whitespace normalization;
  - `RawPage.anchors` models the anchor elements having a nonempty raw
    href attribute, with `href` already resolved to an absolute URL
    (the source resolves every href against the page URL before use);
  - `RawPage.imgSrcs` models the resolved image source URLs.

The network is a pure function `web : String -> Except String HttpResponse`:
an `Except.error` models a rejected fetch (network error or timeout, carrying
the error text), an `Except.ok` models a delivered HTTP response whose `ok`
flag and status model `response.ok` / `response.status`.  The WHATWG URL
hostname parser is a parameter `parseHost : String -> Option String`
(`none` models constructor throw).

JavaScript concurrency inside one batch is modelled by a scheduler parameter
`sched : Nat -> List Target -> List Target` giving, for each round, the order
in which the batch tasks settle; a real schedule is a permutation of the
batch, which theorems assume where needed.  All effects (counter increment,
progress callback, visited-set and queue mutation) happen atomically at each
settlement, as they do between awaits on the JavaScript event loop, and the
generator yields happen after all tasks of the batch settled, mirroring the
`Promise.all` in the source.
-/

/-! ## String utilities modelling the JavaScript primitives used -/

/-- Model of JavaScript `s.includes(sub)`: substring containment. -/
def strIncludes (sub s : String) : Bool :=
  decide (sub.toList <:+: s.toList)

/-- Inner loop of `dedupFirst`, keeping the set of elements already kept. -/
def dedupFirstAux : List String → List String → List String
  | [], _ => []
  | x :: t, kept =>
    if x ∈ kept then dedupFirstAux t kept else x :: dedupFirstAux t (x :: kept)

/-- Model of `[...new Set(xs)]`: deduplication keeping first occurrences. -/
def dedupFirst (l : List String) : List String :=
  dedupFirstAux l []

/-- Inner loop of `collapseWsList`; the flag records whether the previous
character was whitespace (so that one run emits one space). -/
def collapseWsAux : Bool → List Char → List Char
  | _, [] => []
  | inWs, c :: t =>
    if c.isWhitespace then
      if inWs then collapseWsAux true t else ' ' :: collapseWsAux true t
    else c :: collapseWsAux false t

/-- Model of `replace(/\s+/g, ' ')`: every run of whitespace becomes one space. -/
def collapseWsList (l : List Char) : List Char :=
  collapseWsAux false l

/-- Model of JavaScript `trim()`: strip whitespace from both ends. -/
def jsTrimList (l : List Char) : List Char :=
  ((l.dropWhile Char.isWhitespace).reverse.dropWhile Char.isWhitespace).reverse

/-- The cleaned text of a page: `text.replace(/\s+/g, ' ').trim()`. -/
def normalizeWsList (l : List Char) : List Char :=
  jsTrimList (collapseWsList l)

/-- Model of JavaScript `trim()` on strings. -/
def jsTrim (s : String) : String :=
  String.mk (jsTrimList s.toList)

/-- Model of JavaScript `toLowerCase()` (over the characters the crawler
meets; locale subtleties are out of scope). -/
def strToLower (s : String) : String :=
  String.mk (s.toList.map Char.toLower)

/-- Model of JavaScript `s.startsWith(pre)`. -/
def strStartsWith (s pre : String) : Bool :=
  decide (pre.toList <+: s.toList)

/-- Model of JavaScript `s.split(' ')` on a list of characters: the chunks
between single space characters, empty chunks included, so the result of
splitting the empty string is one empty chunk. -/
def jsSplitSpace : List Char → List (List Char)
  | [] => [[]]
  | c :: t =>
    match jsSplitSpace t with
    | [] => [[]]
    | p :: ps => if c = ' ' then [] :: p :: ps else (c :: p) :: ps

/-! ## Data model -/

/-- A frontier entry: the object `{url, depth, category}` pushed on `queue`. -/
structure Target where
  url : String
  depth : Nat
  category : String
deriving DecidableEq, Repr

/-- An anchor element with nonempty raw href, href resolved to absolute. -/
structure Anchor where
  text : String
  href : String
deriving DecidableEq, Repr

/-- The data the source extracts from a fetched HTML document. -/
structure RawPage where
  titleText : String
  contentText : String
  anchors : List Anchor
  imgSrcs : List String
deriving DecidableEq, Repr

/-- A delivered HTTP response (`fetch` resolved). -/
structure HttpResponse where
  ok : Bool
  status : Nat
  statusText : String
  raw : RawPage
deriving DecidableEq, Repr

/-- The record built by `ScraperService.scrapePage` (interface `ScrapedPage`). -/
structure ScrapedPage where
  url : String
  title : String
  content : String
  wordCount : Nat
  depth : Nat
  category : String
  links : List String
  images : List String
deriving DecidableEq, Repr

/-- Observable events of one crawl run: a progress callback invocation
(one per settled fetch attempt; the emitted snapshot fields are the url of
the target, the status, `totalProcessed` and `message`; the full target is
kept so that the specification can speak about the attempted depth), and a
generator yield of a page record. -/
inductive Ev where
  | progress (target : Target) (success : Bool) (totalProcessed : Nat) (message : String)
  | yield (page : ScrapedPage)
deriving DecidableEq, Repr

/-- The crawl configuration (`ScrapingConfig` fields used by the crawler). -/
structure ScrapingConfig where
  targetUrl : String
  maxDepth : Nat
  maxWorkers : Nat
  delay : Nat
deriving DecidableEq, Repr

/-! ## ScraperService -/

/-- Model of `ScraperService.getDomain`: `new URL(url).hostname` with the
constructor throw caught and turned into the empty string. -/
def getDomain (parseHost : String → Option String) (url : String) : String :=
  match parseHost url with
  | some h => h
  | none => ""

/-- Model of `ScraperService.scrapePage`.  A rejected fetch, a non-ok
response (the source throws `HTTP status: statusText` and catches it), and
any parse exception all end in the catch branch, which returns `null`,
modelled by `none`.  On success the record is built exactly as in the
source: title falls back to the url when the trimmed title text is empty,
content is the whitespace-normalized text, `wordCount = content.split(' ').length`,
links are the resolved hrefs filtered by `fullUrl.includes(domain)` and
deduplicated, images are the resolved sources deduplicated. -/
def scrapePage (web : String → Except String HttpResponse)
    (url : String) (depth : Nat) (domain : String) (category : String) :
    Option ScrapedPage :=
  match web url with
  | .error _ => none
  | .ok resp =>
    if resp.ok then
      let t := jsTrim resp.raw.titleText
      let title := if t = "" then url else t
      let contentList := normalizeWsList resp.raw.contentText.toList
      let links := dedupFirst
        ((resp.raw.anchors.filter (fun a => strIncludes domain a.href)).map (fun a => a.href))
      let images := dedupFirst resp.raw.imgSrcs
      some { url := url, title := title, content := String.mk contentList
             wordCount := (jsSplitSpace contentList).length
             depth := depth, category := category, links := links, images := images }
    else none

/-- Model of the regex replace in `sanitizeFilename`. -/
def sanitizeFilename (name : String) : String :=
  String.mk (name.toList.map (fun c =>
    if c ∈ ['\\', '/', '*', '?', ':', '"', '<', '>', '|'] then '_' else c))

/-- The key under which a category link is stored:
`this.sanitizeFilename(text) || 'misc'`. -/
def categoryKey (text : String) : String :=
  let ck := sanitizeFilename text
  if ck = "" then "misc" else ck

/-- Model of `categories[cleanText] = link` on a JavaScript object: keys keep
first-insertion order, a later write to an existing key overwrites its value. -/
def upsertAssoc : List (String × String) → String → String → List (String × String)
  | [], k, v => [(k, v)]
  | (k0, v0) :: t, k, v =>
    if k0 = k then (k0, v) :: t else (k0, v0) :: upsertAssoc t k v

/-- Model of `ScraperService.extractCategories`.  The source does not check
`response.ok` here, so any delivered response is parsed; a rejected fetch
lands in the catch branch which returns the empty object.  An anchor
contributes when its trimmed text is nonempty, does not start with `edit`
(lowercased), and its resolved href contains the domain string.  The
JavaScript `Set` of freshly allocated pairs never deduplicates, so every
matching anchor reaches the category object in document order. -/
def extractCategories (web : String → Except String HttpResponse)
    (baseUrl domain : String) : List (String × String) :=
  match web baseUrl with
  | .error _ => []
  | .ok resp =>
    let pairs := resp.raw.anchors.filterMap (fun a =>
      let text := jsTrim a.text
      if text ≠ "" ∧ strStartsWith (strToLower text) ("edit") = false
          ∧ strIncludes domain a.href = true then
        some (text, a.href)
      else none)
    pairs.foldl (fun acc p => upsertAssoc acc (categoryKey p.1) p.2) []

/-! ## The crawl loop of `scrapeWebsite` -/

/-- Model of the link offer loop run at the settlement of one successful
fetch: `result.links.forEach(link => if (!seen.has(link)) { seen.add(link);
queue.push({url: link, depth: depth + 1, category}) })`.  `seen` is the
visited set, `extra` accumulates the pushes of the current batch in order. -/
def offerLinks (depth : Nat) (category : String) :
    List String → List String → List Target → List String × List Target
  | [], seen, extra => (seen, extra)
  | link :: rest, seen, extra =>
    if link ∈ seen then offerLinks depth category rest seen extra
    else offerLinks depth category rest (seen ++ [link])
      (extra ++ [⟨link, depth + 1, category⟩])

/-- Accumulated state while the tasks of one batch settle. -/
structure BatchAcc where
  seen : List String
  extra : List Target
  processed : Nat
  events : List Ev
deriving Repr

/-- Effects applied when the task of one target settles: exactly one
increment of `processed`, one progress callback, and, on success within the
depth limit, the link offers.  The catch branch of the batch mapper in the
source is unreachable because `scrapePage` catches internally and resolves
with `null`, so a failed attempt always reports the constant message. -/
def settleTarget (web : String → Except String HttpResponse)
    (cfg : ScrapingConfig) (domain : String) (acc : BatchAcc) (t : Target) :
    BatchAcc :=
  match scrapePage web t.url t.depth domain t.category with
  | some r =>
    let processed := acc.processed + 1
    let msg := "Found " ++ toString r.links.length ++ " links, "
      ++ toString r.wordCount ++ " words"
    let so := if t.depth < cfg.maxDepth
      then offerLinks t.depth t.category r.links acc.seen acc.extra
      else (acc.seen, acc.extra)
    { seen := so.1, extra := so.2, processed := processed
      events := acc.events ++ [.progress t true processed msg] }
  | none =>
    { acc with
      processed := acc.processed + 1
      events := acc.events ++ [.progress t false (acc.processed + 1)
        ("Failed to scrape page")] }

/-- All tasks of one batch settle, in the order given by the scheduler. -/
def settleBatch (web : String → Except String HttpResponse)
    (cfg : ScrapingConfig) (domain : String) (order : List Target)
    (acc : BatchAcc) : BatchAcc :=
  order.foldl (settleTarget web cfg domain) acc

/-- After `Promise.all` resolves, the source iterates the results array,
which is in batch submission order, and yields the non-null ones. -/
def batchYields (web : String → Except String HttpResponse)
    (domain : String) (batch : List Target) : List Ev :=
  (batch.filterMap (fun t => scrapePage web t.url t.depth domain t.category)).map .yield

/-- The `while (queue.length > 0)` loop of `scrapeWebsite`: splice a batch
of up to `maxWorkers` targets off the front of the queue, let its tasks
settle in scheduler order (emitting progress events and pushing discovered
links), then yield the successful records in submission order.  Fuel makes
the recursion well founded; every theorem quantifies over all fuel. -/
def crawlLoop (web : String → Except String HttpResponse)
    (cfg : ScrapingConfig) (domain : String)
    (sched : Nat → List Target → List Target) :
    Nat → Nat → List String → List Target → Nat → List Ev
  | 0, _, _, _, _ => []
  | fuel + 1, round, seen, queue, processed =>
    if queue.isEmpty then []
    else
      let batch := queue.take cfg.maxWorkers
      let rest := queue.drop cfg.maxWorkers
      let acc := settleBatch web cfg domain (sched round batch)
        ⟨seen, [], processed, []⟩
      acc.events ++ batchYields web domain batch
        ++ crawlLoop web cfg domain sched fuel (round + 1) acc.seen
          (rest ++ acc.extra) acc.processed

/-- Seeding: `Object.entries(categories).forEach(([category, url]) =>
if (!seen.has(url)) { seen.add(url); queue.push({url, depth: 0, category}) })`. -/
def seedQueue : List (String × String) → List String → List Target →
    List String × List Target
  | [], seen, queue => (seen, queue)
  | (cat, url) :: rest, seen, queue =>
    if url ∈ seen then seedQueue rest seen queue
    else seedQueue rest (seen ++ [url]) (queue ++ [⟨url, 0, cat⟩])

/-- Model of one full `scrapeWebsite` run: the observable event trace. -/
def scrapeWebsiteTrace (parseHost : String → Option String)
    (web : String → Except String HttpResponse)
    (sched : Nat → List Target → List Target)
    (cfg : ScrapingConfig) (fuel : Nat) : List Ev :=
  let domain := getDomain parseHost cfg.targetUrl
  let categories := extractCategories web cfg.targetUrl domain
  let sq := seedQueue categories [] []
  crawlLoop web cfg domain sched fuel 0 sq.1 sq.2 0

/-! ## The project-counter driver of `routes.ts` -/

/-- The project aggregate counters and status updated by the route handler. -/
structure DriverState where
  processedUrls : Nat
  successfulUrls : Nat
  failedUrls : Nat
  status : String
deriving DecidableEq, Repr

/-- Model of the background loop in `routes.ts`: the progress callback
assigns `processedCount = progress.totalProcessed` and increments the
success or error counter; each yielded page is consumed (persistence and
entity extraction), and an exception thrown by the consumer is caught by
the outer try, which marks the project `failed`; if the loop finishes, the
project is marked `completed`. -/
def runDriver (consume : ScrapedPage → Except String Unit) :
    List Ev → DriverState → DriverState
  | [], s => { s with status := "completed" }
  | .progress _ success total _ :: rest, s =>
    runDriver consume rest
      { s with
        processedUrls := total
        successfulUrls := s.successfulUrls + (if success then 1 else 0)
        failedUrls := s.failedUrls + (if success then 0 else 1) }
  | .yield p :: rest, s =>
    match consume p with
    | .ok _ => runDriver consume rest s
    | .error _ => { s with status := "failed" }

/-- The driver state at the start of a run (status `running`). -/
def initialDriverState : DriverState :=
  { processedUrls := 0, successfulUrls := 0, failedUrls := 0, status := "running" }

/-! ## Trace observations -/

/-- The target of a progress event. -/
def evTarget : Ev → Option Target
  | .progress t _ _ _ => some t
  | .yield _ => none

/-- The `totalProcessed` value of a progress event. -/
def evTotal : Ev → Option Nat
  | .progress _ _ total _ => some total
  | .yield _ => none

/-- The message of an error progress event. -/
def evErrorMsg : Ev → Option String
  | .progress _ false _ msg => some msg
  | _ => none

/-- The URL of a success progress event. -/
def evSuccessUrl : Ev → Option String
  | .progress t true _ _ => some t.url
  | _ => none

/-- The page of a yield event. -/
def evPage : Ev → Option ScrapedPage
  | .yield p => some p
  | _ => none

/-- The targets of the progress events, in order: one per fetch attempt. -/
def progressTargets (tr : List Ev) : List Target :=
  tr.filterMap evTarget

/-- The URLs of the fetch attempts, in order. -/
def progressUrls (tr : List Ev) : List String :=
  (progressTargets tr).map (fun t => t.url)

/-- The `totalProcessed` values of the progress events, in order. -/
def progressTotals (tr : List Ev) : List Nat :=
  tr.filterMap evTotal

/-- The messages of the error progress events, in order. -/
def errorMessages (tr : List Ev) : List String :=
  tr.filterMap evErrorMsg

/-- The URLs of the successful fetches, in settlement order. -/
def successUrls (tr : List Ev) : List String :=
  tr.filterMap evSuccessUrl

/-- The pages yielded by the generator, in order. -/
def yieldPages (tr : List Ev) : List ScrapedPage :=
  tr.filterMap evPage

/-- The URLs of the yielded pages, in order. -/
def yieldUrls (tr : List Ev) : List String :=
  (yieldPages tr).map (fun p => p.url)

/-- Number of error progress events. -/
def errorCount (tr : List Ev) : Nat :=
  (errorMessages tr).length

/-! ## Concrete instances used by counterexamples and witnesses -/

/-- A concrete hostname parser matching what `new URL(u).hostname` returns
on the URLs of the sample site. -/
def pHost1 : String → Option String := fun u =>
  if u = "https://ex.test/" then some "ex.test"
  else if u = "https://ex.test/a" then some "ex.test"
  else if u = "https://ex.test/b" then some "ex.test"
  else if u = "https://evil.com/?ref=ex.test" then some "evil.com"
  else none

/-- Helper building a delivered 200 response. -/
def okResp (title content : String) (anchors : List Anchor) :
    Except String HttpResponse :=
  .ok { ok := true, status := 200, statusText := "OK"
        raw := { titleText := title, contentText := content
                 anchors := anchors, imgSrcs := [] } }

/-- A concrete site: the root page names two category pages `a` and `b`;
page `a` links to a cross-host URL whose text contains the domain string. -/
def web1 : String → Except String HttpResponse := fun u =>
  if u = "https://ex.test/" then okResp "Root" "hello world"
    [⟨"CatA", "https://ex.test/a"⟩, ⟨"CatB", "https://ex.test/b"⟩]
  else if u = "https://ex.test/a" then okResp "A" "a page"
    [⟨"x", "https://evil.com/?ref=ex.test"⟩]
  else if u = "https://ex.test/b" then okResp "B" "b page" []
  else if u = "https://evil.com/?ref=ex.test" then okResp "Evil" "gotcha" []
  else .error "ECONNREFUSED"

/-- The sample configuration. -/
def cfg1 : ScrapingConfig :=
  { targetUrl := "https://ex.test/", maxDepth := 2, maxWorkers := 2, delay := 0 }

/-- The submission-order scheduler: tasks settle in submission order. -/
def idSched : Nat → List Target → List Target := fun _ b => b

/-- A scheduler under which each batch settles in reverse submission order. -/
def revSched : Nat → List Target → List Target := fun _ b => b.reverse

/-- A site whose single category page answers HTTP 500. -/
def web2 : String → Except String HttpResponse := fun u =>
  if u = "https://ex.test/" then okResp "Root" "hello world"
    [⟨"CatA", "https://ex.test/a"⟩]
  else if u = "https://ex.test/a" then
    .ok { ok := false, status := 500, statusText := "Internal Server Error"
          raw := { titleText := "", contentText := "", anchors := [], imgSrcs := [] } }
  else .error "ECONNREFUSED"

/-- A site whose category page has no title element and empty content. -/
def web3 : String → Except String HttpResponse := fun u =>
  if u = "https://ex.test/" then okResp "Root" "hello world"
    [⟨"CatA", "https://ex.test/empty"⟩]
  else if u = "https://ex.test/empty" then okResp "" "" []
  else .error "ECONNREFUSED"

/-- Splitting at every whitespace character, keeping empty chunks, in the
manner of `jsSplitSpace`. -/
def splitWsList : List Char → List (List Char)
  | [] => [[]]
  | c :: t =>
    match splitWsList t with
    | [] => [[]]
    | p :: ps => if c.isWhitespace then [] :: p :: ps else (c :: p) :: ps

/-- Number of whitespace-separated tokens of a string, the empty string
having zero tokens.  This definition follows the words of the spec
(word count = whitespace-split token count of the cleaned text), to be
compared with the `wordCount` the code computes. -/
def specTokenCount (s : String) : Nat :=
  ((splitWsList s.toList).filter (fun t => t ≠ [])).length

/-! ## Easy facts about the parts -/

/-- The empty string is a substring of every string. -/
theorem strIncludes_empty_left (s : String) : strIncludes "" s = true := by
  simp [strIncludes]

/-- Claim C9: `getDomain` is total, returning the parsed hostname when the
URL parses and the empty string when the URL constructor throws; and when
the empty string is returned, the substring-based link filter accepts every
link. -/
theorem getDomain_total_and_empty_accepts_all (parseHost : String → Option String)
    (url : String) :
    getDomain parseHost url = (parseHost url).getD "" ∧
    (parseHost url = none →
      ∀ link, strIncludes (getDomain parseHost url) link = true) := by
  constructor
  · cases h : parseHost url <;> simp [getDomain, h]
  · intro h link
    simp [getDomain, h, strIncludes]

/-- Witness for C9 at a concrete non-URL input. -/
theorem getDomain_total_witness :
    strIncludes (getDomain (fun _ => none) "not a url") "https://anything/" = true :=
  (getDomain_total_and_empty_accepts_all (fun _ => none) "not a url").2 rfl _

/-- Claim C10: when the fetch succeeds and the trimmed title text is empty
(no title element or whitespace-only title), the record title is the URL. -/
theorem scrapePage_title_fallback (web : String → Except String HttpResponse)
    (url : String) (depth : Nat) (domain category : String) (resp : HttpResponse)
    (h1 : web url = .ok resp) (h2 : resp.ok = true)
    (h3 : jsTrim resp.raw.titleText = "") :
    (scrapePage web url depth domain category).map (fun p => p.title) = some url := by
  simp [scrapePage, h1, h2, h3]

/-- Witness for C10 on the concrete titleless page of `web3`. -/
theorem scrapePage_title_fallback_witness :
    (scrapePage web3 "https://ex.test/empty" 0 "ex.test" "CatA").map
      (fun p => p.title) = some "https://ex.test/empty" :=
  scrapePage_title_fallback web3 _ 0 _ _ _ rfl rfl (by decide)

/-! ## Counterexamples -/

/-- Counterexample to claim C1 as stated.  On the concrete site `web1`, the
crawl run places on the frontier (and later fetches) the cross-host target
`https://evil.com/?ref=ex.test`, whose host `evil.com` differs from the seed
host `ex.test`; it passes the filter because the filter tests substring
containment of the domain in the whole URL, not host equality.  The first
conjunct certifies that the scheduler used is a genuine per-batch
permutation. -/
theorem crawl_crossdomain_target_enqueued :
    (∀ i (b : List Target), (idSched i b).Perm b) ∧
    ¬ (∀ t ∈ progressTargets (scrapeWebsiteTrace pHost1 web1 idSched cfg1 5),
        getDomain pHost1 t.url = getDomain pHost1 cfg1.targetUrl) :=
  ⟨fun _ b => List.Perm.refl b, by decide⟩

/-- Counterexample to claim C4 as stated.  With a scheduler under which the
two seeds of `web1` settle in reverse submission order (a legal schedule:
each batch order is a permutation of the batch), the successful records are
still yielded in submission order after the whole batch settled, so the
global yield sequence differs from the settlement-order sequence. -/
theorem crawl_yields_not_in_settlement_order :
    (∀ i (b : List Target), (revSched i b).Perm b) ∧
    yieldUrls (scrapeWebsiteTrace pHost1 web1 revSched cfg1 5) ≠
      successUrls (scrapeWebsiteTrace pHost1 web1 revSched cfg1 5) :=
  ⟨fun _ b => List.reverse_perm b, by decide⟩

/-- Counterexample to claim C5 as stated.  On `web2` the only frontier page
answers HTTP 500 with status text `Internal Server Error`; `scrapePage`
throws `HTTP 500: Internal Server Error` internally but catches it and
returns null, so the emitted error snapshot carries the generic constant
`Failed to scrape page`, which contains neither the status nor the status
text. -/
theorem crawl_error_message_is_generic :
    errorMessages (scrapeWebsiteTrace pHost1 web2 idSched cfg1 4) =
      [("Failed to scrape page")] ∧
    strIncludes ("500") ("Failed to scrape page") = false ∧
    strIncludes ("Internal Server Error") ("Failed to scrape page") = false := by
  refine ⟨by decide, by decide, by decide⟩

/-- Counterexample to claim C8 as stated.  A successfully fetched page whose
cleaned text is empty gets `wordCount = 1` (JavaScript `''.split(' ')` is
`['']`), while the whitespace-split token count of the empty text is `0`. -/
theorem scrapePage_wordCount_empty_is_one :
    (scrapePage web3 "https://ex.test/empty" 0 "ex.test" "CatA").map
      (fun p => (p.content, p.wordCount)) = some ("", 1) ∧
    specTokenCount "" = 0 ∧ (1 : Nat) ≠ 0 := by
  refine ⟨by decide, by decide, by decide⟩

/-! ## Structure of the events emitted while a batch settles -/

/-- Whether the fetch and parse of a target succeeds (`scrapePage` non-null). -/
def fetchOk (web : String → Except String HttpResponse) (domain : String)
    (t : Target) : Bool :=
  (scrapePage web t.url t.depth domain t.category).isSome

/-- The message the settlement of a target reports. -/
def settleMsg (web : String → Except String HttpResponse) (domain : String)
    (t : Target) : String :=
  match scrapePage web t.url t.depth domain t.category with
  | some r => "Found " ++ toString r.links.length ++ " links, "
      ++ toString r.wordCount ++ " words"
  | none => "Failed to scrape page"

/-- The progress events a batch emits, given the counter value at its start. -/
def batchProgressEvents (web : String → Except String HttpResponse)
    (domain : String) : Nat → List Target → List Ev
  | _, [] => []
  | n, t :: rest =>
    .progress t (fetchOk web domain t) (n + 1) (settleMsg web domain t)
      :: batchProgressEvents web domain (n + 1) rest

theorem settleTarget_processed (web : String → Except String HttpResponse)
    (cfg : ScrapingConfig) (domain : String) (acc : BatchAcc) (t : Target) :
    (settleTarget web cfg domain acc t).processed = acc.processed + 1 := by
  unfold settleTarget
  cases h : scrapePage web t.url t.depth domain t.category <;> simp [h]

theorem settleTarget_events (web : String → Except String HttpResponse)
    (cfg : ScrapingConfig) (domain : String) (acc : BatchAcc) (t : Target) :
    (settleTarget web cfg domain acc t).events
      = acc.events ++ [.progress t (fetchOk web domain t) (acc.processed + 1)
          (settleMsg web domain t)] := by
  unfold settleTarget fetchOk settleMsg
  cases h : scrapePage web t.url t.depth domain t.category <;> simp [h]

theorem settleBatch_cons (web : String → Except String HttpResponse)
    (cfg : ScrapingConfig) (domain : String) (t : Target) (order : List Target)
    (acc : BatchAcc) :
    settleBatch web cfg domain (t :: order) acc
      = settleBatch web cfg domain order (settleTarget web cfg domain acc t) := by
  simp [settleBatch]

theorem settleBatch_nil (web : String → Except String HttpResponse)
    (cfg : ScrapingConfig) (domain : String) (acc : BatchAcc) :
    settleBatch web cfg domain [] acc = acc := rfl

theorem settleBatch_processed (web : String → Except String HttpResponse)
    (cfg : ScrapingConfig) (domain : String) (order : List Target) (acc : BatchAcc) :
    (settleBatch web cfg domain order acc).processed
      = acc.processed + order.length := by
  induction order generalizing acc with
  | nil => simp [settleBatch_nil]
  | cons t rest ih =>
    rw [settleBatch_cons, ih, settleTarget_processed]
    simp only [List.length_cons]
    omega

theorem settleBatch_events (web : String → Except String HttpResponse)
    (cfg : ScrapingConfig) (domain : String) (order : List Target) (acc : BatchAcc) :
    (settleBatch web cfg domain order acc).events
      = acc.events ++ batchProgressEvents web domain acc.processed order := by
  induction order generalizing acc with
  | nil => simp [settleBatch_nil, batchProgressEvents]
  | cons t rest ih =>
    rw [settleBatch_cons, ih, settleTarget_events, settleTarget_processed]
    simp [batchProgressEvents]

theorem batchProgressEvents_targets (web : String → Except String HttpResponse)
    (domain : String) (n : Nat) (order : List Target) :
    progressTargets (batchProgressEvents web domain n order) = order := by
  induction order generalizing n with
  | nil => simp [batchProgressEvents, progressTargets]
  | cons t rest ih =>
    have h := ih (n + 1)
    simp only [progressTargets] at h ⊢
    simp [batchProgressEvents, List.filterMap_cons, evTarget, h]

theorem batchProgressEvents_totals (web : String → Except String HttpResponse)
    (domain : String) (n : Nat) (order : List Target) :
    progressTotals (batchProgressEvents web domain n order)
      = List.range' (n + 1) order.length := by
  induction order generalizing n with
  | nil => simp [batchProgressEvents, progressTotals]
  | cons t rest ih =>
    simp [batchProgressEvents, progressTotals, evTotal, List.range'] at *
    simpa using ih (n + 1)

theorem batchProgressEvents_yields (web : String → Except String HttpResponse)
    (domain : String) (n : Nat) (order : List Target) :
    yieldPages (batchProgressEvents web domain n order) = [] := by
  induction order generalizing n with
  | nil => simp [batchProgressEvents, yieldPages]
  | cons t rest ih =>
    have h := ih (n + 1)
    simp only [yieldPages] at h ⊢
    simp [batchProgressEvents, List.filterMap_cons, evPage, h]

theorem batchProgressEvents_errorMessages (web : String → Except String HttpResponse)
    (domain : String) (n : Nat) (order : List Target) (m : String)
    (hm : m ∈ errorMessages (batchProgressEvents web domain n order)) :
    m = "Failed to scrape page" := by
  induction order generalizing n with
  | nil => simp [batchProgressEvents, errorMessages] at hm
  | cons t rest ih =>
    simp only [batchProgressEvents, errorMessages, List.filterMap_cons] at hm
    cases hok : fetchOk web domain t with
    | true =>
      rw [hok] at hm
      simp only [evErrorMsg] at hm
      exact ih (n + 1) hm
    | false =>
      rw [hok] at hm
      have hmsg : settleMsg web domain t = "Failed to scrape page" := by
        unfold settleMsg
        unfold fetchOk at hok
        cases h : scrapePage web t.url t.depth domain t.category with
        | some r => rw [h] at hok; simp at hok
        | none => simp
      simp only [evErrorMsg, hmsg] at hm
      rcases List.mem_cons.mp hm with h | h
      · exact h
      · exact ih (n + 1) h

theorem batchProgressEvents_successUrls (web : String → Except String HttpResponse)
    (domain : String) (n : Nat) (order : List Target) :
    successUrls (batchProgressEvents web domain n order)
      = (order.filter (fetchOk web domain)).map (fun t => t.url) := by
  induction order generalizing n with
  | nil => simp [batchProgressEvents, successUrls]
  | cons t rest ih =>
    have h := ih (n + 1)
    simp only [successUrls] at h ⊢
    cases hok : fetchOk web domain t <;>
      simp [batchProgressEvents, List.filterMap_cons, evSuccessUrl, hok,
        List.filter_cons, h]


/-! ## The totalProcessed counter -/

/-- The list is `p + 1, p + 2, ...`: each settled fetch reports a counter
exactly one larger than the previous one, starting one above `p`. -/
def TotalsFrom : Nat → List Nat → Prop
  | _, [] => True
  | p, n :: rest => n = p + 1 ∧ TotalsFrom (p + 1) rest

theorem totalsFrom_append (a : List Nat) :
    ∀ (b : List Nat) (p : Nat),
      TotalsFrom p (a ++ b) ↔ TotalsFrom p a ∧ TotalsFrom (p + a.length) b := by
  induction a with
  | nil => intro b p; simp [TotalsFrom]
  | cons n rest ih =>
    intro b p
    have hl : p + (n :: rest).length = p + 1 + rest.length := by
      simp only [List.length_cons]; omega
    rw [hl]
    show (n = p + 1 ∧ TotalsFrom (p + 1) (rest ++ b))
      ↔ (n = p + 1 ∧ TotalsFrom (p + 1) rest) ∧ TotalsFrom (p + 1 + rest.length) b
    rw [ih b (p + 1)]
    tauto

theorem batchProgressEvents_totalsFrom (web : String → Except String HttpResponse)
    (domain : String) (order : List Target) :
    ∀ n : Nat,
      TotalsFrom n (progressTotals (batchProgressEvents web domain n order)) ∧
      (progressTotals (batchProgressEvents web domain n order)).length = order.length := by
  induction order with
  | nil => intro n; simp [batchProgressEvents, progressTotals, TotalsFrom]
  | cons t rest ih =>
    intro n
    have h := ih (n + 1)
    simp only [progressTotals] at h ⊢
    simp only [batchProgressEvents, List.filterMap_cons, evTotal, List.length_cons]
    refine ⟨⟨rfl, h.1⟩, by simp [h.2]⟩

theorem crawlLoop_totalsFrom (web : String → Except String HttpResponse)
    (cfg : ScrapingConfig) (domain : String)
    (sched : Nat → List Target → List Target) :
    ∀ (fuel round : Nat) (seen : List String) (queue : List Target) (processed : Nat),
      TotalsFrom processed
        (progressTotals (crawlLoop web cfg domain sched fuel round seen queue processed)) := by
  intro fuel
  induction fuel with
  | zero => intro round seen queue processed; simp [crawlLoop, progressTotals, TotalsFrom]
  | succ fuel ih =>
    intro round seen queue processed
    by_cases hq : queue.isEmpty
    · simp [crawlLoop, hq, progressTotals, TotalsFrom]
    · have hev := settleBatch_events web cfg domain
        (sched round (queue.take cfg.maxWorkers)) ⟨seen, [], processed, []⟩
      have hpr := settleBatch_processed web cfg domain
        (sched round (queue.take cfg.maxWorkers)) ⟨seen, [], processed, []⟩
      simp only [List.nil_append] at hev hpr
      have hbatch := batchProgressEvents_totalsFrom web domain
        (sched round (queue.take cfg.maxWorkers)) processed
      have hyields : List.filterMap evTotal (batchYields web domain (queue.take cfg.maxWorkers)) = [] := by
        simp [batchYields, List.filterMap_map, evTotal]
      have hrec := ih (round + 1)
        (settleBatch web cfg domain (sched round (queue.take cfg.maxWorkers))
          ⟨seen, [], processed, []⟩).seen
        (queue.drop cfg.maxWorkers ++ (settleBatch web cfg domain
          (sched round (queue.take cfg.maxWorkers)) ⟨seen, [], processed, []⟩).extra)
        (settleBatch web cfg domain (sched round (queue.take cfg.maxWorkers))
          ⟨seen, [], processed, []⟩).processed
      rw [hpr] at hrec
      simp only [progressTotals] at hbatch hrec ⊢
      rw [crawlLoop, if_neg hq]
      simp only [List.filterMap_append, hev, hpr, hyields, List.append_nil]
      rw [totalsFrom_append]
      exact ⟨hbatch.1, by rw [hbatch.2]; exact hrec⟩

theorem runDriver_ok_counters (evs : List Ev) :
    ∀ (p0 s0 f0 : Nat) (st : String),
      TotalsFrom p0 (progressTotals evs) → p0 = s0 + f0 →
      ((runDriver (fun _ => .ok ()) evs ⟨p0, s0, f0, st⟩).processedUrls
          = (runDriver (fun _ => .ok ()) evs ⟨p0, s0, f0, st⟩).successfulUrls
            + (runDriver (fun _ => .ok ()) evs ⟨p0, s0, f0, st⟩).failedUrls) ∧
      (runDriver (fun _ => .ok ()) evs ⟨p0, s0, f0, st⟩).processedUrls
          = p0 + (progressTotals evs).length := by
  induction evs with
  | nil =>
    intro p0 s0 f0 st h1 h2
    simp [runDriver, progressTotals, h2]
  | cons e rest ih =>
    intro p0 s0 f0 st h1 h2
    cases e with
    | progress t b total m =>
      simp only [progressTotals, List.filterMap_cons, evTotal] at h1 ⊢
      obtain ⟨htot, hrest⟩ := h1
      subst htot
      cases b with
      | true =>
        have := ih (p0 + 1) (s0 + 1) f0 st hrest (by omega)
        simp only [progressTotals] at this
        simp only [runDriver, List.length_cons, if_true, Nat.add_zero]
        refine ⟨this.1, by rw [this.2]; omega⟩
      | false =>
        have := ih (p0 + 1) s0 (f0 + 1) st hrest (by omega)
        simp only [progressTotals] at this
        simp only [runDriver, List.length_cons, Bool.false_eq_true, if_false,
          Nat.add_zero]
        refine ⟨this.1, by rw [this.2]; omega⟩
    | yield p =>
      simp only [progressTotals, List.filterMap_cons, evTotal] at h1 ⊢
      have := ih p0 s0 f0 st h1 h2
      simpa [runDriver] using this

/-- Claim C6: across every crawl run (any site, any scheduler, any
configuration), the `totalProcessed` values reported by the progress events
are exactly `1, 2, 3, ...` (one increment per settled fetch), and after any
prefix of the event stream the project counters maintained by the route
handler satisfy `processedUrls = successfulUrls + failedUrls`. -/
theorem crawl_counters_consistent (parseHost : String → Option String)
    (web : String → Except String HttpResponse)
    (sched : Nat → List Target → List Target) (cfg : ScrapingConfig) (fuel : Nat)
    (pre post : List Ev)
    (hsplit : scrapeWebsiteTrace parseHost web sched cfg fuel = pre ++ post) :
    TotalsFrom 0 (progressTotals (scrapeWebsiteTrace parseHost web sched cfg fuel)) ∧
    (runDriver (fun _ => .ok ()) pre initialDriverState).processedUrls
      = (runDriver (fun _ => .ok ()) pre initialDriverState).successfulUrls
        + (runDriver (fun _ => .ok ()) pre initialDriverState).failedUrls := by
  have htot : TotalsFrom 0 (progressTotals (scrapeWebsiteTrace parseHost web sched cfg fuel)) := by
    simp only [scrapeWebsiteTrace]
    exact crawlLoop_totalsFrom web cfg _ sched fuel 0 _ _ 0
  refine ⟨htot, ?_⟩
  rw [hsplit] at htot
  simp only [progressTotals, List.filterMap_append] at htot
  have hpre := ((totalsFrom_append _ _ _).mp htot).1
  have hpre' : TotalsFrom 0 (progressTotals pre) := by
    simpa [progressTotals] using hpre
  exact (runDriver_ok_counters pre 0 0 0 "running" hpre' rfl).1

/-- Witness for C6: the concrete run on `web1`, with the whole trace as the
prefix. -/
theorem crawl_counters_consistent_witness :
    TotalsFrom 0 (progressTotals (scrapeWebsiteTrace pHost1 web1 idSched cfg1 5)) ∧
    (runDriver (fun _ => .ok ()) (scrapeWebsiteTrace pHost1 web1 idSched cfg1 5)
        initialDriverState).processedUrls
      = (runDriver (fun _ => .ok ()) (scrapeWebsiteTrace pHost1 web1 idSched cfg1 5)
          initialDriverState).successfulUrls
        + (runDriver (fun _ => .ok ()) (scrapeWebsiteTrace pHost1 web1 idSched cfg1 5)
            initialDriverState).failedUrls :=
  crawl_counters_consistent pHost1 web1 idSched cfg1 5 _ []
    (List.append_nil _).symm

/-! ## Run termination status -/

theorem runDriver_ok_status (consume : ScrapedPage → Except String Unit)
    (hconsume : ∀ p, consume p = .ok ()) :
    ∀ (evs : List Ev) (s : DriverState),
      (runDriver consume evs s).status = "completed" ∧
      (runDriver consume evs s).failedUrls = s.failedUrls + errorCount evs := by
  intro evs
  induction evs with
  | nil => intro s; simp [runDriver, errorCount, errorMessages]
  | cons e rest ih =>
    intro s
    cases e with
    | progress t b total m =>
      cases b with
      | true =>
        have := ih { s with processedUrls := total
                            successfulUrls := s.successfulUrls + 1
                            failedUrls := s.failedUrls + 0 }
        simp only [runDriver, if_true, Nat.add_zero] at this ⊢
        refine ⟨this.1, ?_⟩
        rw [this.2]
        simp [errorCount, errorMessages, List.filterMap_cons, evErrorMsg]
      | false =>
        have := ih { s with processedUrls := total
                            successfulUrls := s.successfulUrls + 0
                            failedUrls := s.failedUrls + 1 }
        simp only [runDriver, Bool.false_eq_true, if_false, Nat.add_zero] at this ⊢
        refine ⟨this.1, ?_⟩
        rw [this.2]
        simp only [errorCount, errorMessages, List.filterMap_cons, evErrorMsg,
          List.length_cons]
        omega
    | yield p =>
      have := ih s
      simp only [runDriver, hconsume p] at this ⊢
      refine ⟨this.1, ?_⟩
      rw [this.2]
      simp [errorCount, errorMessages, List.filterMap_cons, evErrorMsg]

/-- Claim C7: per-URL fetch or parse failures never abort the run.  For
every site (including sites on which some or all frontier fetches fail),
as long as no exception escapes the consumer side of the orchestration
loop, the driver finishes with project status `completed`, and `failedUrls`
counts exactly the per-URL failures. -/
theorem crawl_failures_complete (parseHost : String → Option String)
    (web : String → Except String HttpResponse)
    (sched : Nat → List Target → List Target) (cfg : ScrapingConfig) (fuel : Nat)
    (consume : ScrapedPage → Except String Unit)
    (hconsume : ∀ p, consume p = .ok ()) :
    (runDriver consume (scrapeWebsiteTrace parseHost web sched cfg fuel)
        initialDriverState).status = "completed" ∧
    (runDriver consume (scrapeWebsiteTrace parseHost web sched cfg fuel)
        initialDriverState).failedUrls
      = errorCount (scrapeWebsiteTrace parseHost web sched cfg fuel) := by
  have h := runDriver_ok_status consume hconsume
    (scrapeWebsiteTrace parseHost web sched cfg fuel) initialDriverState
  exact ⟨h.1, by rw [h.2]; simp [initialDriverState]⟩

/-- Witness for C7 on `web2`, a run whose only frontier fetch fails with
HTTP 500: the run still completes, with one failed URL. -/
theorem crawl_failures_complete_witness :
    (runDriver (fun _ => .ok ()) (scrapeWebsiteTrace pHost1 web2 idSched cfg1 4)
        initialDriverState).status = "completed" ∧
    (runDriver (fun _ => .ok ()) (scrapeWebsiteTrace pHost1 web2 idSched cfg1 4)
        initialDriverState).failedUrls
      = errorCount (scrapeWebsiteTrace pHost1 web2 idSched cfg1 4) :=
  crawl_failures_complete pHost1 web2 idSched cfg1 4 _ (fun _ => rfl)

/-! ## Where frontier targets come from -/

theorem dedupFirstAux_subset : ∀ (l kept : List String) (x : String),
    x ∈ dedupFirstAux l kept → x ∈ l := by
  intro l
  induction l with
  | nil => intro kept x h; simp [dedupFirstAux] at h
  | cons y t ih =>
    intro kept x h
    simp only [dedupFirstAux] at h
    by_cases hy : y ∈ kept
    · simp only [if_pos hy] at h
      exact List.mem_cons_of_mem y (ih kept x h)
    · simp only [if_neg hy] at h
      rcases List.mem_cons.mp h with h | h
      · exact h ▸ List.mem_cons_self y t
      · exact List.mem_cons_of_mem y (ih (y :: kept) x h)

theorem dedupFirst_subset (l : List String) (x : String) (h : x ∈ dedupFirst l) :
    x ∈ l :=
  dedupFirstAux_subset l [] x h

/-- Fields of a successful `scrapePage` record are the call arguments. -/
theorem scrapePage_fields (web : String → Except String HttpResponse)
    (url : String) (depth : Nat) (domain category : String) (r : ScrapedPage)
    (h : scrapePage web url depth domain category = some r) :
    r.url = url ∧ r.depth = depth ∧ r.category = category := by
  unfold scrapePage at h
  cases hw : web url with
  | error e => rw [hw] at h; simp at h
  | ok resp =>
    rw [hw] at h
    by_cases hok : resp.ok
    · simp only [if_pos hok, Option.some.injEq] at h
      subst h; exact ⟨rfl, rfl, rfl⟩
    · simp [hok] at h

/-- Every link of a successful `scrapePage` record passed the
`fullUrl.includes(domain)` filter. -/
theorem scrapePage_links_include (web : String → Except String HttpResponse)
    (url : String) (depth : Nat) (domain category : String) (r : ScrapedPage)
    (h : scrapePage web url depth domain category = some r) :
    ∀ link ∈ r.links, strIncludes domain link = true := by
  unfold scrapePage at h
  cases hw : web url with
  | error e => rw [hw] at h; simp at h
  | ok resp =>
    rw [hw] at h
    by_cases hok : resp.ok
    · simp only [if_pos hok, Option.some.injEq] at h
      subst h
      intro link hlink
      simp only at hlink
      have := dedupFirst_subset _ _ hlink
      rcases List.mem_map.mp this with ⟨a, ha, rfl⟩
      exact (List.mem_filter.mp ha).2
    · simp [hok] at h

theorem offerLinks_extra_mem (d : Nat) (cat : String) :
    ∀ (links seen : List String) (extra : List Target) (t : Target),
      t ∈ (offerLinks d cat links seen extra).2 →
      t ∈ extra ∨ ∃ link ∈ links, t = ⟨link, d + 1, cat⟩ := by
  intro links
  induction links with
  | nil => intro seen extra t h; exact Or.inl h
  | cons link rest ih =>
    intro seen extra t h
    simp only [offerLinks] at h
    by_cases hs : link ∈ seen
    · rw [if_pos hs] at h
      rcases ih seen extra t h with h | ⟨l, hl, rfl⟩
      · exact Or.inl h
      · exact Or.inr ⟨l, List.mem_cons_of_mem link hl, rfl⟩
    · rw [if_neg hs] at h
      rcases ih (seen ++ [link]) (extra ++ [⟨link, d + 1, cat⟩]) t h with h | ⟨l, hl, rfl⟩
      · rcases List.mem_append.mp h with h | h
        · exact Or.inl h
        · simp only [List.mem_singleton] at h
          exact Or.inr ⟨link, List.mem_cons_self link rest, h⟩
      · exact Or.inr ⟨l, List.mem_cons_of_mem link hl, rfl⟩

theorem settleTarget_extra_mem (web : String → Except String HttpResponse)
    (cfg : ScrapingConfig) (domain : String) (acc : BatchAcc) (t : Target)
    (x : Target) (hx : x ∈ (settleTarget web cfg domain acc t).extra) :
    x ∈ acc.extra ∨ ∃ r, scrapePage web t.url t.depth domain t.category = some r
      ∧ t.depth < cfg.maxDepth ∧ ∃ link ∈ r.links, x = ⟨link, t.depth + 1, t.category⟩ := by
  unfold settleTarget at hx
  cases h : scrapePage web t.url t.depth domain t.category with
  | none => rw [h] at hx; exact Or.inl hx
  | some r =>
    rw [h] at hx
    simp only at hx
    by_cases hd : t.depth < cfg.maxDepth
    · rw [if_pos hd] at hx
      rcases offerLinks_extra_mem t.depth t.category r.links acc.seen acc.extra x hx
        with h1 | ⟨link, hl, rfl⟩
      · exact Or.inl h1
      · exact Or.inr ⟨r, rfl, hd, link, hl, rfl⟩
    · rw [if_neg hd] at hx
      exact Or.inl hx

theorem settleBatch_extra_mem (web : String → Except String HttpResponse)
    (cfg : ScrapingConfig) (domain : String) :
    ∀ (order : List Target) (acc : BatchAcc) (x : Target),
      x ∈ (settleBatch web cfg domain order acc).extra →
      x ∈ acc.extra ∨ ∃ t ∈ order, ∃ r,
        scrapePage web t.url t.depth domain t.category = some r
          ∧ t.depth < cfg.maxDepth
          ∧ ∃ link ∈ r.links, x = ⟨link, t.depth + 1, t.category⟩ := by
  intro order
  induction order with
  | nil => intro acc x h; exact Or.inl h
  | cons t rest ih =>
    intro acc x h
    rw [settleBatch_cons] at h
    rcases ih (settleTarget web cfg domain acc t) x h with h1 | ⟨t', ht', hr⟩
    · rcases settleTarget_extra_mem web cfg domain acc t x h1 with h2 | ⟨r, hr, hd, hl⟩
      · exact Or.inl h2
      · exact Or.inr ⟨t, List.mem_cons_self t rest, r, hr, hd, hl⟩
    · exact Or.inr ⟨t', List.mem_cons_of_mem t ht', hr⟩

theorem seedQueue_mem :
    ∀ (cats : List (String × String)) (seen : List String) (queue : List Target)
      (t : Target), t ∈ (seedQueue cats seen queue).2 →
      t ∈ queue ∨ ∃ cat, (cat, t.url) ∈ cats ∧ t.depth = 0 ∧ t.category = cat := by
  intro cats
  induction cats with
  | nil => intro seen queue t h; exact Or.inl h
  | cons kv rest ih =>
    intro seen queue t h
    obtain ⟨cat, url⟩ := kv
    simp only [seedQueue] at h
    by_cases hs : url ∈ seen
    · rw [if_pos hs] at h
      rcases ih seen queue t h with h | ⟨c, hc, hd, hcat⟩
      · exact Or.inl h
      · exact Or.inr ⟨c, List.mem_cons_of_mem _ hc, hd, hcat⟩
    · rw [if_neg hs] at h
      rcases ih (seen ++ [url]) (queue ++ [⟨url, 0, cat⟩]) t h with h | ⟨c, hc, hd, hcat⟩
      · rcases List.mem_append.mp h with h | h
        · exact Or.inl h
        · simp only [List.mem_singleton] at h
          subst h
          exact Or.inr ⟨cat, List.mem_cons_self _ rest, rfl, rfl⟩
      · exact Or.inr ⟨c, List.mem_cons_of_mem _ hc, hd, hcat⟩

theorem upsertAssoc_values (Q : String → Prop) :
    ∀ (acc : List (String × String)) (k v : String),
      (∀ kv ∈ acc, Q kv.2) → Q v → ∀ kv ∈ upsertAssoc acc k v, Q kv.2 := by
  intro acc
  induction acc with
  | nil =>
    intro k v _ hv kv hkv
    simp only [upsertAssoc, List.mem_singleton] at hkv
    subst hkv; exact hv
  | cons kv0 rest ih =>
    intro k v hacc hv kv hkv
    obtain ⟨k0, v0⟩ := kv0
    simp only [upsertAssoc] at hkv
    by_cases hk : k0 = k
    · rw [if_pos hk] at hkv
      rcases List.mem_cons.mp hkv with h | h
      · subst h; exact hv
      · exact hacc kv (List.mem_cons_of_mem _ h)
    · rw [if_neg hk] at hkv
      rcases List.mem_cons.mp hkv with h | h
      · subst h; exact hacc (k0, v0) (List.mem_cons_self _ rest)
      · exact ih k v (fun x hx => hacc x (List.mem_cons_of_mem _ hx)) hv kv h

/-- Every category value produced by `extractCategories` passed the
`fullUrl.includes(domain)` filter. -/
theorem extractCategories_values_include (web : String → Except String HttpResponse)
    (baseUrl domain : String) :
    ∀ kv ∈ extractCategories web baseUrl domain, strIncludes domain kv.2 = true := by
  unfold extractCategories
  cases hw : web baseUrl with
  | error e => intro kv hkv; simp at hkv
  | ok resp =>
    simp only
    generalize hps : resp.raw.anchors.filterMap _ = pairs
    have hpairs : ∀ p ∈ pairs, strIncludes domain p.2 = true := by
      intro p hp
      rw [← hps] at hp
      rcases List.mem_filterMap.mp hp with ⟨a, _, ha⟩
      by_cases hc : jsTrim a.text ≠ ""
        ∧ strStartsWith (strToLower (jsTrim a.text)) ("edit") = false
        ∧ strIncludes domain a.href = true
      · rw [if_pos hc] at ha
        cases ha; exact hc.2.2
      · rw [if_neg hc] at ha; cases ha
    clear hps
    induction pairs using List.reverseRecOn with
    | nil => intro kv hkv; simp at hkv
    | append_singleton front p ih =>
      rw [List.foldl_append]
      simp only [List.foldl_cons, List.foldl_nil]
      exact upsertAssoc_values (fun v => strIncludes domain v = true) _ _ _
        (ih (fun q hq => hpairs q (List.mem_append_left _ hq)))
        (hpairs p (List.mem_append_right _ (List.mem_singleton_self p)))

theorem batchYields_targets (web : String → Except String HttpResponse)
    (domain : String) (batch : List Target) :
    progressTargets (batchYields web domain batch) = [] := by
  simp [batchYields, progressTargets, List.filterMap_map, evTarget, Function.comp]

theorem batchYields_pages (web : String → Except String HttpResponse)
    (domain : String) (batch : List Target) :
    yieldPages (batchYields web domain batch)
      = batch.filterMap (fun t => scrapePage web t.url t.depth domain t.category) := by
  unfold batchYields yieldPages
  rw [List.filterMap_map]
  have h : (evPage ∘ Ev.yield) = some := by
    funext p; rfl
  rw [h, List.filterMap_some]

/-- The central frontier invariant: any property of targets that holds on
the whole queue and is preserved from a settled target to the targets its
links spawn (under the depth guard) holds for every target ever attempted,
and every yielded page is the `scrapePage` result of such a target. -/
theorem crawlLoop_target_inv (web : String → Except String HttpResponse)
    (cfg : ScrapingConfig) (domain : String)
    (sched : Nat → List Target → List Target) (P : Target → Prop)
    (hstep : ∀ (t : Target) (r : ScrapedPage), P t → t.depth < cfg.maxDepth →
      scrapePage web t.url t.depth domain t.category = some r →
      ∀ link ∈ r.links, P ⟨link, t.depth + 1, t.category⟩)
    (hsched : ∀ (i : Nat) (b : List Target) (t : Target), t ∈ sched i b → t ∈ b) :
    ∀ (fuel round : Nat) (seen : List String) (queue : List Target) (processed : Nat),
      (∀ t ∈ queue, P t) →
      (∀ t ∈ progressTargets (crawlLoop web cfg domain sched fuel round seen queue processed), P t) ∧
      (∀ p ∈ yieldPages (crawlLoop web cfg domain sched fuel round seen queue processed),
        ∃ t, P t ∧ scrapePage web t.url t.depth domain t.category = some p) := by
  intro fuel
  induction fuel with
  | zero =>
    intro round seen queue processed hq
    simp [crawlLoop, progressTargets, yieldPages]
  | succ fuel ih =>
    intro round seen queue processed hq
    by_cases hempty : queue.isEmpty
    · simp [crawlLoop, hempty, progressTargets, yieldPages]
    · have hbq : ∀ t ∈ queue.take cfg.maxWorkers, P t :=
        fun t ht => hq t (List.take_subset _ _ ht)
      have horder : ∀ t ∈ sched round (queue.take cfg.maxWorkers), P t :=
        fun t ht => hbq t (hsched round _ t ht)
      have hev : (settleBatch web cfg domain (sched round (queue.take cfg.maxWorkers))
          ⟨seen, [], processed, []⟩).events
          = batchProgressEvents web domain processed (sched round (queue.take cfg.maxWorkers)) := by
        simpa using settleBatch_events web cfg domain
          (sched round (queue.take cfg.maxWorkers)) ⟨seen, [], processed, []⟩
      have hextra : ∀ x ∈ (settleBatch web cfg domain
          (sched round (queue.take cfg.maxWorkers)) ⟨seen, [], processed, []⟩).extra, P x := by
        intro x hx
        rcases settleBatch_extra_mem web cfg domain _ _ x hx with h | ⟨t, ht, r, hr, hd, link, hl, rfl⟩
        · simp at h
        · exact hstep t r (horder t ht) hd hr link hl
      have hq' : ∀ t ∈ queue.drop cfg.maxWorkers ++ (settleBatch web cfg domain
          (sched round (queue.take cfg.maxWorkers)) ⟨seen, [], processed, []⟩).extra, P t := by
        intro t ht
        rcases List.mem_append.mp ht with h | h
        · exact hq t (List.drop_subset _ _ h)
        · exact hextra t h
      have hrec := ih (round + 1)
        (settleBatch web cfg domain (sched round (queue.take cfg.maxWorkers))
          ⟨seen, [], processed, []⟩).seen
        (queue.drop cfg.maxWorkers ++ (settleBatch web cfg domain
          (sched round (queue.take cfg.maxWorkers)) ⟨seen, [], processed, []⟩).extra)
        (settleBatch web cfg domain (sched round (queue.take cfg.maxWorkers))
          ⟨seen, [], processed, []⟩).processed hq'
      have htargets := batchProgressEvents_targets web domain processed
        (sched round (queue.take cfg.maxWorkers))
      have hbyt := batchYields_targets web domain (queue.take cfg.maxWorkers)
      have hbpy := batchProgressEvents_yields web domain processed
        (sched round (queue.take cfg.maxWorkers))
      have hbyp := batchYields_pages web domain (queue.take cfg.maxWorkers)
      rw [crawlLoop, if_neg hempty]
      simp only [progressTargets, yieldPages, List.filterMap_append, hev] at hrec htargets hbyt hbpy hbyp ⊢
      rw [htargets, hbyt, hbpy, hbyp]
      constructor
      · intro t ht
        simp only [List.mem_append, List.not_mem_nil, or_false, false_or] at ht
        rcases ht with ht | ht
        · exact horder t ht
        · exact hrec.1 t ht
      · intro p hp
        simp only [List.mem_append, List.not_mem_nil, or_false, false_or] at hp
        rcases hp with hp | hp
        · rcases List.mem_filterMap.mp hp with ⟨t, ht, hsp⟩
          exact ⟨t, hbq t ht, hsp⟩
        · exact hrec.2 p hp

/-- Claim C3: every yielded page record has `depth <= maxDepth`, and no
fetch is attempted for a target whose depth exceeds `maxDepth` (seeds enter
at depth 0, links of a page at depth `d` are enqueued at `d + 1` only when
`d < maxDepth`). -/
theorem crawl_depth_bound (parseHost : String → Option String)
    (web : String → Except String HttpResponse)
    (sched : Nat → List Target → List Target) (cfg : ScrapingConfig) (fuel : Nat)
    (hsched : ∀ (i : Nat) (b : List Target) (t : Target), t ∈ sched i b → t ∈ b) :
    (∀ p ∈ yieldPages (scrapeWebsiteTrace parseHost web sched cfg fuel),
      p.depth ≤ cfg.maxDepth) ∧
    (∀ t ∈ progressTargets (scrapeWebsiteTrace parseHost web sched cfg fuel),
      t.depth ≤ cfg.maxDepth) := by
  have hseed : ∀ t ∈ (seedQueue (extractCategories web cfg.targetUrl
      (getDomain parseHost cfg.targetUrl)) [] []).2, t.depth ≤ cfg.maxDepth := by
    intro t ht
    rcases seedQueue_mem _ _ _ t ht with h | ⟨c, _, hd, _⟩
    · simp at h
    · rw [hd]; exact Nat.zero_le _
  have hmain := crawlLoop_target_inv web cfg (getDomain parseHost cfg.targetUrl)
    sched (fun t => t.depth ≤ cfg.maxDepth)
    (fun t r _ hd _ link _ => hd) hsched fuel 0
    (seedQueue (extractCategories web cfg.targetUrl
      (getDomain parseHost cfg.targetUrl)) [] []).1
    (seedQueue (extractCategories web cfg.targetUrl
      (getDomain parseHost cfg.targetUrl)) [] []).2 0 hseed
  constructor
  · intro p hp
    simp only [scrapeWebsiteTrace] at hp
    rcases hmain.2 p hp with ⟨t, hPt, hsp⟩
    have hf := (scrapePage_fields web t.url t.depth _ t.category p hsp).2.1
    rw [hf]; exact hPt
  · intro t ht
    simp only [scrapeWebsiteTrace] at ht
    exact hmain.1 t ht

/-- Witness for C3: the deepest target attempted in the concrete run over
`web1` is within the depth bound. -/
theorem crawl_depth_bound_witness :
    (⟨"https://evil.com/?ref=ex.test", 1, "CatA"⟩ : Target).depth ≤ cfg1.maxDepth :=
  (crawl_depth_bound pHost1 web1 idSched cfg1 5 (fun _ _ _ h => h)).2
    ⟨"https://evil.com/?ref=ex.test", 1, "CatA"⟩ (by decide)

/-- Amended claim C1: every target ever placed on the frontier (seeded or
offered) has a URL that contains the domain string (the hostname of the
seed URL) as a substring; host equality is not guaranteed, as
`crawl_crossdomain_target_enqueued` shows. -/
theorem crawl_targets_include_domain (parseHost : String → Option String)
    (web : String → Except String HttpResponse)
    (sched : Nat → List Target → List Target) (cfg : ScrapingConfig) (fuel : Nat)
    (hsched : ∀ (i : Nat) (b : List Target) (t : Target), t ∈ sched i b → t ∈ b) :
    ∀ t ∈ progressTargets (scrapeWebsiteTrace parseHost web sched cfg fuel),
      strIncludes (getDomain parseHost cfg.targetUrl) t.url = true := by
  have hseed : ∀ t ∈ (seedQueue (extractCategories web cfg.targetUrl
      (getDomain parseHost cfg.targetUrl)) [] []).2,
      strIncludes (getDomain parseHost cfg.targetUrl) t.url = true := by
    intro t ht
    rcases seedQueue_mem _ _ _ t ht with h | ⟨c, hc, _, _⟩
    · simp at h
    · exact extractCategories_values_include web cfg.targetUrl _ (c, t.url) hc
  have hmain := crawlLoop_target_inv web cfg (getDomain parseHost cfg.targetUrl)
    sched (fun t => strIncludes (getDomain parseHost cfg.targetUrl) t.url = true)
    (fun t r _ _ hsp link hl =>
      scrapePage_links_include web t.url t.depth _ t.category r hsp link hl)
    hsched fuel 0
    (seedQueue (extractCategories web cfg.targetUrl
      (getDomain parseHost cfg.targetUrl)) [] []).1
    (seedQueue (extractCategories web cfg.targetUrl
      (getDomain parseHost cfg.targetUrl)) [] []).2 0 hseed
  intro t ht
  simp only [scrapeWebsiteTrace] at ht
  exact hmain.1 t ht

/-- Witness for the amended C1: the cross-host target attempted in the
concrete run over `web1` still contains the domain string. -/
theorem crawl_targets_include_domain_witness :
    strIncludes (getDomain pHost1 cfg1.targetUrl) "https://evil.com/?ref=ex.test" = true :=
  crawl_targets_include_domain pHost1 web1 idSched cfg1 5 (fun _ _ _ h => h)
    ⟨"https://evil.com/?ref=ex.test", 1, "CatA"⟩ (by decide)

/-! ## Error messages -/

theorem batchYields_errorMessages (web : String → Except String HttpResponse)
    (domain : String) (batch : List Target) :
    errorMessages (batchYields web domain batch) = [] := by
  unfold batchYields errorMessages
  rw [List.filterMap_map]
  have h : (evErrorMsg ∘ Ev.yield) = fun (_ : ScrapedPage) => none := by
    funext p; rfl
  rw [h]
  simp

theorem crawlLoop_errorMessages (web : String → Except String HttpResponse)
    (cfg : ScrapingConfig) (domain : String)
    (sched : Nat → List Target → List Target) :
    ∀ (fuel round : Nat) (seen : List String) (queue : List Target) (processed : Nat),
      ∀ m ∈ errorMessages (crawlLoop web cfg domain sched fuel round seen queue processed),
        m = "Failed to scrape page" := by
  intro fuel
  induction fuel with
  | zero => intro round seen queue processed m hm; simp [crawlLoop, errorMessages] at hm
  | succ fuel ih =>
    intro round seen queue processed m hm
    by_cases hempty : queue.isEmpty
    · simp [crawlLoop, hempty, errorMessages] at hm
    · have hev : (settleBatch web cfg domain (sched round (queue.take cfg.maxWorkers))
          ⟨seen, [], processed, []⟩).events
          = batchProgressEvents web domain processed (sched round (queue.take cfg.maxWorkers)) := by
        simpa using settleBatch_events web cfg domain
          (sched round (queue.take cfg.maxWorkers)) ⟨seen, [], processed, []⟩
      have hby := batchYields_errorMessages web domain (queue.take cfg.maxWorkers)
      rw [crawlLoop, if_neg hempty] at hm
      simp only [errorMessages, List.filterMap_append, hev] at hm hby
      rw [hby] at hm
      simp only [List.append_nil, List.mem_append] at hm
      rcases hm with hm | hm
      · exact batchProgressEvents_errorMessages web domain processed _ m
          (by simpa [errorMessages] using hm)
      · exact ih (round + 1) _ _ _ m hm

/-- Amended claim C5: for every fetch attempt that fails, whatever the
failure (network error, non-2xx status, timeout, parse exception), the
emitted error ProgressSnapshot's message is the generic constant
`Failed to scrape page`: `scrapePage` swallowed the specific failure text. -/
theorem crawl_error_messages_constant (parseHost : String → Option String)
    (web : String → Except String HttpResponse)
    (sched : Nat → List Target → List Target) (cfg : ScrapingConfig) (fuel : Nat) :
    ∀ m ∈ errorMessages (scrapeWebsiteTrace parseHost web sched cfg fuel),
      m = "Failed to scrape page" := by
  intro m hm
  simp only [scrapeWebsiteTrace] at hm
  exact crawlLoop_errorMessages web cfg _ sched fuel 0 _ _ 0 m hm

/-- Witness for the amended C5 on the failing run over `web2`. -/
theorem crawl_error_messages_constant_witness :
    ("Failed to scrape page" : String) = "Failed to scrape page" :=
  crawl_error_messages_constant pHost1 web2 idSched cfg1 4
    "Failed to scrape page" (by decide)

/-! ## Batch buffering: settle phase then yield phase -/

/-- Shape of the events of one loop round: first the progress events of the
settling batch, then the yields, the yielded URLs being a permutation of
the successfully settled URLs of the same round. -/
def RoundShape (r : List Ev) : Prop :=
  ∃ settles yields : List Ev,
    r = settles ++ yields ∧
    (∀ e ∈ settles, (evTarget e).isSome = true) ∧
    (∀ e ∈ yields, (evPage e).isSome = true) ∧
    ((yieldPages r).map (fun p => p.url)).Perm (successUrls r)

theorem batchProgressEvents_isProgress (web : String → Except String HttpResponse)
    (domain : String) :
    ∀ (order : List Target) (n : Nat) (e : Ev),
      e ∈ batchProgressEvents web domain n order → (evTarget e).isSome = true := by
  intro order
  induction order with
  | nil => intro n e he; simp [batchProgressEvents] at he
  | cons t rest ih =>
    intro n e he
    rcases List.mem_cons.mp he with h | h
    · subst h; rfl
    · exact ih (n + 1) e h

theorem batchYields_isYield (web : String → Except String HttpResponse)
    (domain : String) (batch : List Target) (e : Ev)
    (he : e ∈ batchYields web domain batch) : (evPage e).isSome = true := by
  unfold batchYields at he
  rcases List.mem_map.mp he with ⟨p, _, rfl⟩
  rfl

theorem batchYields_successUrls (web : String → Except String HttpResponse)
    (domain : String) (batch : List Target) :
    successUrls (batchYields web domain batch) = [] := by
  unfold batchYields successUrls
  rw [List.filterMap_map]
  have h : (evSuccessUrl ∘ Ev.yield) = fun (_ : ScrapedPage) => none := by
    funext p; rfl
  rw [h]
  simp

theorem filterMap_scrapePage_urls (web : String → Except String HttpResponse)
    (domain : String) :
    ∀ batch : List Target,
      ((batch.filterMap (fun t => scrapePage web t.url t.depth domain t.category)).map
          (fun p => p.url))
        = (batch.filter (fetchOk web domain)).map (fun t => t.url) := by
  intro batch
  induction batch with
  | nil => simp
  | cons t rest ih =>
    cases h : scrapePage web t.url t.depth domain t.category with
    | none =>
      have hok : fetchOk web domain t = false := by simp [fetchOk, h]
      simp [List.filterMap_cons, List.filter_cons, h, hok, ih]
    | some r =>
      have hok : fetchOk web domain t = true := by simp [fetchOk, h]
      have hurl := (scrapePage_fields web t.url t.depth domain t.category r h).1
      simp [List.filterMap_cons, List.filter_cons, h, hok, ih, hurl]

theorem roundShape_of_batch (web : String → Except String HttpResponse)
    (domain : String) (order batch : List Target)
    (processed : Nat) (hperm : order.Perm batch) :
    RoundShape (batchProgressEvents web domain processed order
      ++ batchYields web domain batch) := by
  refine ⟨batchProgressEvents web domain processed order,
    batchYields web domain batch, rfl,
    batchProgressEvents_isProgress web domain order processed,
    fun e he => batchYields_isYield web domain batch e he, ?_⟩
  have hyp : yieldPages (batchProgressEvents web domain processed order
      ++ batchYields web domain batch)
      = batch.filterMap (fun t => scrapePage web t.url t.depth domain t.category) := by
    simp only [yieldPages, List.filterMap_append]
    have h1 := batchProgressEvents_yields web domain processed order
    have h2 := batchYields_pages web domain batch
    simp only [yieldPages] at h1 h2
    rw [h1, h2, List.nil_append]
  have hsu : successUrls (batchProgressEvents web domain processed order
      ++ batchYields web domain batch)
      = (order.filter (fetchOk web domain)).map (fun t => t.url) := by
    simp only [successUrls, List.filterMap_append]
    have h1 := batchProgressEvents_successUrls web domain processed order
    have h2 := batchYields_successUrls web domain batch
    simp only [successUrls] at h1 h2
    rw [h1, h2, List.append_nil]
  rw [hyp, hsu, filterMap_scrapePage_urls web domain batch]
  exact ((hperm.filter (fetchOk web domain)).map (fun t => t.url)).symm

/-- Description of the event stream written from the words of the amended
claim C4, to be compared with the trace the source model produces.  The
run is a sequence of rounds in FIFO frontier order: each round removes the
first `maxWorkers` targets from the front of the frontier (the batch),
emits one progress event per target of the batch in settlement order (the
shared counter growing by exactly one per settled fetch, hence by the
batch size per round), and only after the whole batch has settled emits
the yields of the successful records, in batch submission order
(`batchProgressEvents` renders the settlement block, `batchYields` the
submission-order yield block).  Links discovered during the round join the
back of the frontier for later rounds; that state evolution is shared
with the source model, since the amended claim concerns event order only. -/
def bufferedRoundsSpec (web : String → Except String HttpResponse)
    (cfg : ScrapingConfig) (domain : String)
    (sched : Nat → List Target → List Target) :
    Nat → Nat → List String → List Target → Nat → List (List Ev)
  | 0, _, _, _, _ => []
  | fuel + 1, round, seen, queue, processed =>
    if queue.isEmpty then []
    else
      (batchProgressEvents web domain processed (sched round (queue.take cfg.maxWorkers))
          ++ batchYields web domain (queue.take cfg.maxWorkers))
        :: bufferedRoundsSpec web cfg domain sched fuel (round + 1)
            (settleBatch web cfg domain (sched round (queue.take cfg.maxWorkers))
              ⟨seen, [], processed, []⟩).seen
            (queue.drop cfg.maxWorkers ++ (settleBatch web cfg domain
              (sched round (queue.take cfg.maxWorkers)) ⟨seen, [], processed, []⟩).extra)
            (processed + (queue.take cfg.maxWorkers).length)

theorem crawlLoop_eq_bufferedRounds (web : String → Except String HttpResponse)
    (cfg : ScrapingConfig) (domain : String)
    (sched : Nat → List Target → List Target)
    (hsched : ∀ (i : Nat) (b : List Target), (sched i b).Perm b) :
    ∀ (fuel round : Nat) (seen : List String) (queue : List Target) (processed : Nat),
      crawlLoop web cfg domain sched fuel round seen queue processed
        = (bufferedRoundsSpec web cfg domain sched fuel round seen queue processed).flatten := by
  intro fuel
  induction fuel with
  | zero =>
    intro round seen queue processed
    simp [crawlLoop, bufferedRoundsSpec]
  | succ fuel ih =>
    intro round seen queue processed
    by_cases hempty : queue.isEmpty
    · simp [crawlLoop, bufferedRoundsSpec, hempty]
    · have hev : (settleBatch web cfg domain (sched round (queue.take cfg.maxWorkers))
          ⟨seen, [], processed, []⟩).events
          = batchProgressEvents web domain processed (sched round (queue.take cfg.maxWorkers)) := by
        simpa using settleBatch_events web cfg domain
          (sched round (queue.take cfg.maxWorkers)) ⟨seen, [], processed, []⟩
      have hp2 : (settleBatch web cfg domain (sched round (queue.take cfg.maxWorkers))
          ⟨seen, [], processed, []⟩).processed
          = processed + (queue.take cfg.maxWorkers).length := by
        rw [settleBatch_processed]
        simp [(hsched round (queue.take cfg.maxWorkers)).length_eq]
      rw [crawlLoop, if_neg hempty, bufferedRoundsSpec, if_neg hempty, List.flatten_cons]
      simp only [hev, hp2, List.append_assoc]
      rw [ih]

theorem bufferedRoundsSpec_yield_perm (web : String → Except String HttpResponse)
    (cfg : ScrapingConfig) (domain : String)
    (sched : Nat → List Target → List Target)
    (hsched : ∀ (i : Nat) (b : List Target), (sched i b).Perm b) :
    ∀ (fuel round : Nat) (seen : List String) (queue : List Target) (processed : Nat),
      ∀ r ∈ bufferedRoundsSpec web cfg domain sched fuel round seen queue processed,
        ((yieldPages r).map (fun p => p.url)).Perm (successUrls r) := by
  intro fuel
  induction fuel with
  | zero =>
    intro round seen queue processed r hr
    simp [bufferedRoundsSpec] at hr
  | succ fuel ih =>
    intro round seen queue processed r hr
    by_cases hempty : queue.isEmpty
    · rw [bufferedRoundsSpec, if_pos hempty] at hr
      simp at hr
    · rw [bufferedRoundsSpec, if_neg hempty] at hr
      rcases List.mem_cons.mp hr with h | h
      · subst h
        obtain ⟨s, y, heq, h1, h2, hp⟩ := roundShape_of_batch web domain _ _ processed
          (hsched round (queue.take cfg.maxWorkers))
        exact hp
      · exact ih (round + 1) _ _ _ r h

/-- Amended claim C4: for every run, the event stream is exactly the
flattening of the buffered rounds described from the amended claim
(`bufferedRoundsSpec`): per round, the whole batch — the first
`maxWorkers` targets of the FIFO frontier — settles first, emitting one
progress event per target in settlement order, and only then are the
successful records yielded, in batch submission order; and within each
round the yielded URLs are a permutation of the successfully settled
URLs.  An implementation yielding each record immediately at its own
settlement, or yielding in settlement order, would violate this equality
(see `crawl_yields_not_in_settlement_order`). -/
theorem crawl_batches_settle_then_yield (parseHost : String → Option String)
    (web : String → Except String HttpResponse)
    (sched : Nat → List Target → List Target) (cfg : ScrapingConfig) (fuel : Nat)
    (hsched : ∀ (i : Nat) (b : List Target), (sched i b).Perm b) :
    scrapeWebsiteTrace parseHost web sched cfg fuel
      = (bufferedRoundsSpec web cfg (getDomain parseHost cfg.targetUrl) sched fuel 0
          (seedQueue (extractCategories web cfg.targetUrl
            (getDomain parseHost cfg.targetUrl)) [] []).1
          (seedQueue (extractCategories web cfg.targetUrl
            (getDomain parseHost cfg.targetUrl)) [] []).2 0).flatten
    ∧ ∀ r ∈ bufferedRoundsSpec web cfg (getDomain parseHost cfg.targetUrl) sched fuel 0
          (seedQueue (extractCategories web cfg.targetUrl
            (getDomain parseHost cfg.targetUrl)) [] []).1
          (seedQueue (extractCategories web cfg.targetUrl
            (getDomain parseHost cfg.targetUrl)) [] []).2 0,
        ((yieldPages r).map (fun p => p.url)).Perm (successUrls r) := by
  constructor
  · simp only [scrapeWebsiteTrace]
    exact crawlLoop_eq_bufferedRounds web cfg (getDomain parseHost cfg.targetUrl)
      sched hsched fuel 0 _ _ 0
  · exact bufferedRoundsSpec_yield_perm web cfg (getDomain parseHost cfg.targetUrl)
      sched hsched fuel 0 _ _ 0

/-- Witness for the amended C4 on the concrete reverse-settling run over
`web1`: the trace equals the flattened buffered-round description. -/
theorem crawl_batches_settle_then_yield_witness :
    scrapeWebsiteTrace pHost1 web1 revSched cfg1 5
      = (bufferedRoundsSpec web1 cfg1 (getDomain pHost1 cfg1.targetUrl) revSched 5 0
          (seedQueue (extractCategories web1 cfg1.targetUrl
            (getDomain pHost1 cfg1.targetUrl)) [] []).1
          (seedQueue (extractCategories web1 cfg1.targetUrl
            (getDomain pHost1 cfg1.targetUrl)) [] []).2 0).flatten :=
  (crawl_batches_settle_then_yield pHost1 web1 revSched cfg1 5
    (fun _ b => List.reverse_perm b)).1

/-! ## The visited-set discipline -/

theorem offerLinks_inv (d : Nat) (cat : String) :
    ∀ (links seen : List String) (extra : List Target),
      ((extra.map (fun t => t.url)).Nodup) → (∀ t ∈ extra, t.url ∈ seen) →
      (∀ u ∈ seen, u ∈ (offerLinks d cat links seen extra).1) ∧
      (((offerLinks d cat links seen extra).2.map (fun t => t.url)).Nodup) ∧
      (∀ t ∈ (offerLinks d cat links seen extra).2,
        t.url ∈ (offerLinks d cat links seen extra).1) ∧
      (∀ t ∈ (offerLinks d cat links seen extra).2, t ∈ extra ∨ t.url ∉ seen) := by
  intro links
  induction links with
  | nil =>
    intro seen extra hnd hsub
    exact ⟨fun u hu => hu, hnd, hsub, fun t ht => Or.inl ht⟩
  | cons link rest ih =>
    intro seen extra hnd hsub
    by_cases hs : link ∈ seen
    · simp only [offerLinks, if_pos hs]
      exact ih seen extra hnd hsub
    · simp only [offerLinks, if_neg hs]
      have hnd' : (((extra ++ [(⟨link, d + 1, cat⟩ : Target)]).map (fun t => t.url)).Nodup) := by
        rw [List.map_append]
        rw [List.nodup_append]
        refine ⟨hnd, List.nodup_singleton _, ?_⟩
        intro u hu hmem
        simp only [List.map_cons, List.map_nil, List.mem_singleton] at hmem
        subst hmem
        rcases List.mem_map.mp hu with ⟨t, ht, hturl⟩
        exact hs (hturl ▸ hsub t ht)
      have hsub' : ∀ t ∈ extra ++ [(⟨link, d + 1, cat⟩ : Target)], t.url ∈ seen ++ [link] := by
        intro t ht
        rcases List.mem_append.mp ht with h | h
        · exact List.mem_append_left _ (hsub t h)
        · simp only [List.mem_singleton] at h
          subst h
          exact List.mem_append_right _ (List.mem_singleton_self _)
      obtain ⟨g1, g2, g3, g4⟩ := ih (seen ++ [link]) (extra ++ [⟨link, d + 1, cat⟩]) hnd' hsub'
      refine ⟨fun u hu => g1 u (List.mem_append_left _ hu), g2, g3, ?_⟩
      intro t ht
      rcases g4 t ht with h | h
      · rcases List.mem_append.mp h with h | h
        · exact Or.inl h
        · simp only [List.mem_singleton] at h
          subst h
          exact Or.inr hs
      · exact Or.inr (fun hm => h (List.mem_append_left _ hm))

theorem settleTarget_inv (web : String → Except String HttpResponse)
    (cfg : ScrapingConfig) (domain : String) (acc : BatchAcc) (t : Target)
    (hnd : ((acc.extra.map (fun x => x.url)).Nodup))
    (hsub : ∀ x ∈ acc.extra, x.url ∈ acc.seen) :
    (∀ u ∈ acc.seen, u ∈ (settleTarget web cfg domain acc t).seen) ∧
    (((settleTarget web cfg domain acc t).extra.map (fun x => x.url)).Nodup) ∧
    (∀ x ∈ (settleTarget web cfg domain acc t).extra,
      x.url ∈ (settleTarget web cfg domain acc t).seen) ∧
    (∀ x ∈ (settleTarget web cfg domain acc t).extra,
      x ∈ acc.extra ∨ x.url ∉ acc.seen) := by
  unfold settleTarget
  cases h : scrapePage web t.url t.depth domain t.category with
  | none => exact ⟨fun u hu => hu, hnd, hsub, fun x hx => Or.inl hx⟩
  | some r =>
    simp only
    by_cases hd : t.depth < cfg.maxDepth
    · rw [if_pos hd]
      exact offerLinks_inv t.depth t.category r.links acc.seen acc.extra hnd hsub
    · rw [if_neg hd]
      exact ⟨fun u hu => hu, hnd, hsub, fun x hx => Or.inl hx⟩

theorem settleBatch_inv (web : String → Except String HttpResponse)
    (cfg : ScrapingConfig) (domain : String) :
    ∀ (order : List Target) (acc : BatchAcc),
      ((acc.extra.map (fun x => x.url)).Nodup) →
      (∀ x ∈ acc.extra, x.url ∈ acc.seen) →
      (∀ u ∈ acc.seen, u ∈ (settleBatch web cfg domain order acc).seen) ∧
      (((settleBatch web cfg domain order acc).extra.map (fun x => x.url)).Nodup) ∧
      (∀ x ∈ (settleBatch web cfg domain order acc).extra,
        x.url ∈ (settleBatch web cfg domain order acc).seen) ∧
      (∀ x ∈ (settleBatch web cfg domain order acc).extra,
        x ∈ acc.extra ∨ x.url ∉ acc.seen) := by
  intro order
  induction order with
  | nil =>
    intro acc hnd hsub
    exact ⟨fun u hu => hu, hnd, hsub, fun x hx => Or.inl hx⟩
  | cons t rest ih =>
    intro acc hnd hsub
    obtain ⟨s1, s2, s3, s4⟩ := settleTarget_inv web cfg domain acc t hnd hsub
    obtain ⟨g1, g2, g3, g4⟩ := ih (settleTarget web cfg domain acc t) s2 s3
    rw [settleBatch_cons]
    refine ⟨fun u hu => g1 u (s1 u hu), g2, g3, ?_⟩
    intro x hx
    rcases g4 x hx with h | h
    · exact s4 x h
    · exact Or.inr (fun hm => h (s1 x.url hm))

theorem seedQueue_inv :
    ∀ (cats : List (String × String)) (seen : List String) (queue : List Target),
      ((queue.map (fun t => t.url)).Nodup) → (∀ t ∈ queue, t.url ∈ (seen : List String)) →
      (((seedQueue cats seen queue).2.map (fun t => t.url)).Nodup) ∧
      (∀ t ∈ (seedQueue cats seen queue).2, t.url ∈ (seedQueue cats seen queue).1) := by
  intro cats
  induction cats with
  | nil => intro seen queue hnd hsub; exact ⟨hnd, hsub⟩
  | cons kv rest ih =>
    intro seen queue hnd hsub
    obtain ⟨cat, url⟩ := kv
    simp only [seedQueue]
    by_cases hs : url ∈ seen
    · rw [if_pos hs]
      exact ih seen queue hnd hsub
    · rw [if_neg hs]
      have hnd' : (((queue ++ [(⟨url, 0, cat⟩ : Target)]).map (fun t => t.url)).Nodup) := by
        rw [List.map_append, List.nodup_append]
        refine ⟨hnd, List.nodup_singleton _, ?_⟩
        intro u hu hmem
        simp only [List.map_cons, List.map_nil, List.mem_singleton] at hmem
        subst hmem
        rcases List.mem_map.mp hu with ⟨t, ht, hturl⟩
        exact hs (hturl ▸ hsub t ht)
      have hsub' : ∀ t ∈ queue ++ [(⟨url, 0, cat⟩ : Target)], t.url ∈ seen ++ [url] := by
        intro t ht
        rcases List.mem_append.mp ht with h | h
        · exact List.mem_append_left _ (hsub t h)
        · simp only [List.mem_singleton] at h
          subst h
          exact List.mem_append_right _ (List.mem_singleton_self _)
      exact ih (seen ++ [url]) (queue ++ [⟨url, 0, cat⟩]) hnd' hsub'

theorem crawlLoop_nodup (web : String → Except String HttpResponse)
    (cfg : ScrapingConfig) (domain : String)
    (sched : Nat → List Target → List Target)
    (hsched : ∀ (i : Nat) (b : List Target), (sched i b).Perm b) :
    ∀ (fuel round : Nat) (seen : List String) (queue : List Target) (processed : Nat)
      (done : List String),
      ((done ++ queue.map (fun t => t.url)).Nodup) →
      (∀ u ∈ done, u ∈ seen) → (∀ t ∈ queue, t.url ∈ seen) →
      ((done ++ progressUrls
        (crawlLoop web cfg domain sched fuel round seen queue processed)).Nodup) := by
  intro fuel
  induction fuel with
  | zero =>
    intro round seen queue processed done hnd _ _
    simpa [crawlLoop, progressUrls, progressTargets] using hnd.of_append_left
  | succ fuel ih =>
    intro round seen queue processed done hnd hdone hqueue
    by_cases hempty : queue.isEmpty
    · simpa [crawlLoop, hempty, progressUrls, progressTargets] using hnd.of_append_left
    · have hperm : (sched round (queue.take cfg.maxWorkers)).Perm (queue.take cfg.maxWorkers) :=
        hsched round (queue.take cfg.maxWorkers)
      have hev : (settleBatch web cfg domain (sched round (queue.take cfg.maxWorkers))
          ⟨seen, [], processed, []⟩).events
          = batchProgressEvents web domain processed (sched round (queue.take cfg.maxWorkers)) := by
        simpa using settleBatch_events web cfg domain
          (sched round (queue.take cfg.maxWorkers)) ⟨seen, [], processed, []⟩
      obtain ⟨m1, m2, m3, m4⟩ := settleBatch_inv web cfg domain
        (sched round (queue.take cfg.maxWorkers)) ⟨seen, [], processed, []⟩
        (by simp) (by simp)
      simp only at m1 m2 m3 m4
      have hextra_not_seen : ∀ x ∈ (settleBatch web cfg domain
          (sched round (queue.take cfg.maxWorkers)) ⟨seen, [], processed, []⟩).extra,
          x.url ∉ seen := by
        intro x hx
        rcases m4 x hx with h | h
        · simp at h
        · exact h
      have hq_split : queue.map (fun t => t.url)
          = (queue.take cfg.maxWorkers).map (fun t => t.url)
            ++ (queue.drop cfg.maxWorkers).map (fun t => t.url) := by
        rw [← List.map_append, List.take_append_drop]
      have hnd0 : ((done ++ ((queue.take cfg.maxWorkers).map (fun t => t.url)
          ++ (queue.drop cfg.maxWorkers).map (fun t => t.url))).Nodup) := by
        rw [← hq_split]; exact hnd
      have hpmap : ((sched round (queue.take cfg.maxWorkers)).map (fun t => t.url)).Perm
          ((queue.take cfg.maxWorkers).map (fun t => t.url)) := hperm.map _
      have hnd1 : ((done ++ ((sched round (queue.take cfg.maxWorkers)).map (fun t => t.url)
          ++ (queue.drop cfg.maxWorkers).map (fun t => t.url))).Nodup) := by
        refine ((List.Perm.append_left done (hpmap.symm.append (List.Perm.refl _)))).nodup hnd0
      have hmem_seen : ∀ u ∈ (done ++ ((sched round (queue.take cfg.maxWorkers)).map
          (fun t => t.url) ++ (queue.drop cfg.maxWorkers).map (fun t => t.url))),
          u ∈ seen := by
        intro u hu
        rcases List.mem_append.mp hu with h | h
        · exact hdone u h
        · rcases List.mem_append.mp h with h | h
          · rcases List.mem_map.mp h with ⟨t, ht, rfl⟩
            exact hqueue t (List.take_subset _ _ (hperm.mem_iff.mp ht))
          · rcases List.mem_map.mp h with ⟨t, ht, rfl⟩
            exact hqueue t (List.drop_subset _ _ ht)
      have Hnd : (((done ++ (sched round (queue.take cfg.maxWorkers)).map (fun t => t.url))
          ++ ((queue.drop cfg.maxWorkers ++ (settleBatch web cfg domain
            (sched round (queue.take cfg.maxWorkers)) ⟨seen, [], processed, []⟩).extra).map
              (fun t => t.url))).Nodup) := by
        rw [List.map_append]
        rw [show ((done ++ (sched round (queue.take cfg.maxWorkers)).map (fun t => t.url))
            ++ ((queue.drop cfg.maxWorkers).map (fun t => t.url)
              ++ ((settleBatch web cfg domain (sched round (queue.take cfg.maxWorkers))
                ⟨seen, [], processed, []⟩).extra.map (fun t => t.url))))
          = ((done ++ ((sched round (queue.take cfg.maxWorkers)).map (fun t => t.url)
              ++ (queue.drop cfg.maxWorkers).map (fun t => t.url)))
            ++ ((settleBatch web cfg domain (sched round (queue.take cfg.maxWorkers))
              ⟨seen, [], processed, []⟩).extra.map (fun t => t.url))) by
          simp [List.append_assoc]]
        rw [List.nodup_append]
        refine ⟨hnd1, m2, ?_⟩
        intro u hu hmem
        rcases List.mem_map.mp hmem with ⟨x, hx, rfl⟩
        exact hextra_not_seen x hx (hmem_seen x.url hu)
      have Hdone : ∀ u ∈ (done ++ (sched round (queue.take cfg.maxWorkers)).map
          (fun t => t.url)), u ∈ (settleBatch web cfg domain
            (sched round (queue.take cfg.maxWorkers)) ⟨seen, [], processed, []⟩).seen := by
        intro u hu
        rcases List.mem_append.mp hu with h | h
        · exact m1 u (hdone u h)
        · rcases List.mem_map.mp h with ⟨t, ht, rfl⟩
          exact m1 t.url (hqueue t (List.take_subset _ _ (hperm.mem_iff.mp ht)))
      have Hqueue : ∀ t ∈ (queue.drop cfg.maxWorkers ++ (settleBatch web cfg domain
          (sched round (queue.take cfg.maxWorkers)) ⟨seen, [], processed, []⟩).extra),
          t.url ∈ (settleBatch web cfg domain
            (sched round (queue.take cfg.maxWorkers)) ⟨seen, [], processed, []⟩).seen := by
        intro t ht
        rcases List.mem_append.mp ht with h | h
        · exact m1 t.url (hqueue t (List.drop_subset _ _ h))
        · exact m3 t h
      have main := ih (round + 1)
        (settleBatch web cfg domain (sched round (queue.take cfg.maxWorkers))
          ⟨seen, [], processed, []⟩).seen
        (queue.drop cfg.maxWorkers ++ (settleBatch web cfg domain
          (sched round (queue.take cfg.maxWorkers)) ⟨seen, [], processed, []⟩).extra)
        (settleBatch web cfg domain (sched round (queue.take cfg.maxWorkers))
          ⟨seen, [], processed, []⟩).processed
        (done ++ (sched round (queue.take cfg.maxWorkers)).map (fun t => t.url))
        Hnd Hdone Hqueue
      have htb := batchProgressEvents_targets web domain processed
        (sched round (queue.take cfg.maxWorkers))
      have hyb := batchYields_targets web domain (queue.take cfg.maxWorkers)
      simp only [progressTargets] at htb hyb
      rw [crawlLoop, if_neg hempty]
      simp only [progressUrls, progressTargets, List.filterMap_append, hev, htb, hyb,
        List.map_append, List.map_nil, List.append_nil, List.nil_append]
      simp only [progressUrls, progressTargets] at main
      simpa [List.append_assoc] using main

/-- Claim C2: in every crawl run (cyclic link graphs included), no URL
appears twice in the sequence of fetch attempts: a URL joins the visited
set at the moment it is first discovered (seeding or link offer) and a URL
already visited is never enqueued again, so the attempted URLs are
pairwise distinct. -/
theorem crawl_no_url_fetched_twice (parseHost : String → Option String)
    (web : String → Except String HttpResponse)
    (sched : Nat → List Target → List Target) (cfg : ScrapingConfig) (fuel : Nat)
    (hsched : ∀ (i : Nat) (b : List Target), (sched i b).Perm b) :
    (progressUrls (scrapeWebsiteTrace parseHost web sched cfg fuel)).Nodup := by
  have hseed := seedQueue_inv (extractCategories web cfg.targetUrl
    (getDomain parseHost cfg.targetUrl)) [] [] (by simp) (by simp)
  have main := crawlLoop_nodup web cfg (getDomain parseHost cfg.targetUrl) sched hsched
    fuel 0
    (seedQueue (extractCategories web cfg.targetUrl
      (getDomain parseHost cfg.targetUrl)) [] []).1
    (seedQueue (extractCategories web cfg.targetUrl
      (getDomain parseHost cfg.targetUrl)) [] []).2 0 []
    (by simpa using hseed.1) (by simp) hseed.2
  simp only [List.nil_append] at main
  simpa [scrapeWebsiteTrace] using main

/-- A site with a link cycle: page `a` links to `b` and to itself, page `b`
links back to `a`. -/
def web4 : String → Except String HttpResponse := fun u =>
  if u = "https://ex.test/" then okResp "Root" "hello world"
    [⟨"CatA", "https://ex.test/a"⟩]
  else if u = "https://ex.test/a" then okResp "A" "a page"
    [⟨"self", "https://ex.test/a"⟩, ⟨"to b", "https://ex.test/b"⟩]
  else if u = "https://ex.test/b" then okResp "B" "b page"
    [⟨"back", "https://ex.test/a"⟩]
  else .error "ECONNREFUSED"

/-- Witness for C2 on the concrete run over the cyclic site `web4`. -/
theorem crawl_no_url_fetched_twice_witness :
    (progressUrls (scrapeWebsiteTrace pHost1 web4 idSched cfg1 6)).Nodup :=
  crawl_no_url_fetched_twice pHost1 web4 idSched cfg1 6 (fun _ b => List.Perm.refl b)

/-! ## Word counting on normalized text -/

/-- No two adjacent space characters. -/
def noDbl : List Char → Bool
  | [] => true
  | [_] => true
  | c :: d :: t => !(c = ' ' && d = ' ') && noDbl (d :: t)

theorem noDbl_cons (c : Char) (l : List Char) :
    noDbl (c :: l) = true ↔
      (∀ d, l.head? = some d → c = ' ' → d ≠ ' ') ∧ noDbl l = true := by
  cases l with
  | nil => simp [noDbl]
  | cons d t =>
    simp only [noDbl, Bool.and_eq_true, Bool.not_eq_true', List.head?_cons,
      Option.some.injEq]
    constructor
    · rintro ⟨h1, h2⟩
      refine ⟨?_, h2⟩
      rintro e rfl hc he
      subst hc; subst he
      simp at h1
    · rintro ⟨h1, h2⟩
      refine ⟨?_, h2⟩
      by_cases hc : c = ' '
      · by_cases hd : d = ' '
        · exact absurd hd (h1 d rfl hc)
        · simp [hc, hd]
      · simp [hc]

theorem noDbl_tail (c : Char) (l : List Char) (h : noDbl (c :: l) = true) :
    noDbl l = true :=
  ((noDbl_cons c l).mp h).2

theorem noDbl_suffix : ∀ (l1 l2 : List Char), noDbl (l1 ++ l2) = true → noDbl l2 = true := by
  intro l1
  induction l1 with
  | nil => intro l2 h; exact h
  | cons c t ih => intro l2 h; exact ih l2 (noDbl_tail c _ h)

theorem noDbl_prefix : ∀ (l1 l2 : List Char), noDbl (l1 ++ l2) = true → noDbl l1 = true := by
  intro l1
  induction l1 with
  | nil => intro l2 _; rfl
  | cons c t ih =>
    intro l2 h
    rw [List.cons_append] at h
    obtain ⟨h1, h2⟩ := (noDbl_cons c (t ++ l2)).mp h
    rw [noDbl_cons]
    refine ⟨?_, ih l2 h2⟩
    intro d hd hc
    apply h1 d _ hc
    cases t with
    | nil => simp at hd
    | cons e t' => simpa using hd

theorem collapseWsAux_ws : ∀ (l : List Char) (b : Bool) (c : Char),
    c ∈ collapseWsAux b l → c.isWhitespace = true → c = ' ' := by
  intro l
  induction l with
  | nil => intro b c hc _; simp [collapseWsAux] at hc
  | cons a t ih =>
    intro b c hc hw
    by_cases ha : a.isWhitespace
    · cases b with
      | true =>
        simp only [collapseWsAux, if_pos ha] at hc
        exact ih true c hc hw
      | false =>
        simp only [collapseWsAux, if_pos ha] at hc
        rcases List.mem_cons.mp hc with h | h
        · exact h
        · exact ih true c h hw
    · simp only [collapseWsAux, if_neg ha] at hc
      rcases List.mem_cons.mp hc with h | h
      · subst h; exact absurd hw (by simpa using ha)
      · exact ih false c h hw

theorem collapseWsAux_noDbl : ∀ (l : List Char),
    noDbl (collapseWsAux false l) = true ∧ noDbl (collapseWsAux true l) = true ∧
    (∀ c, (collapseWsAux true l).head? = some c → c ≠ ' ') := by
  intro l
  induction l with
  | nil => exact ⟨rfl, rfl, by simp [collapseWsAux]⟩
  | cons a t ih =>
    obtain ⟨ihf, iht, ihh⟩ := ih
    by_cases ha : a.isWhitespace
    · refine ⟨?_, ?_, ?_⟩
      · simp only [collapseWsAux, if_pos ha, Bool.false_eq_true, if_false]
        rw [noDbl_cons]
        exact ⟨fun d hd _ => ihh d hd, iht⟩
      · simp only [collapseWsAux, if_pos ha, if_true]
        exact iht
      · simp only [collapseWsAux, if_pos ha, if_true]
        exact ihh
    · have ha' : a ≠ ' ' := by
        intro h; subst h; simp at ha
      refine ⟨?_, ?_, ?_⟩
      · simp only [collapseWsAux, if_neg ha]
        rw [noDbl_cons]
        exact ⟨fun d _ hc => absurd hc ha', ihf⟩
      · simp only [collapseWsAux, if_neg ha]
        rw [noDbl_cons]
        exact ⟨fun d _ hc => absurd hc ha', ihf⟩
      · simp only [collapseWsAux, if_neg ha]
        intro c hc
        simp only [List.head?_cons, Option.some.injEq] at hc
        subst hc; exact ha'

theorem dropWhile_head_not (p : Char → Bool) :
    ∀ (l : List Char) (c : Char), (l.dropWhile p).head? = some c → p c = false := by
  intro l
  induction l with
  | nil => intro c h; simp [List.dropWhile] at h
  | cons a t ih =>
    intro c h
    by_cases ha : p a
    · rw [List.dropWhile_cons_of_pos ha] at h
      exact ih c h
    · rw [List.dropWhile_cons_of_neg ha] at h
      simp only [List.head?_cons, Option.some.injEq] at h
      subst h
      simpa using ha

theorem prefix_head (l m : List Char) (hp : l <+: m) (hne : l ≠ []) :
    l.head? = m.head? := by
  obtain ⟨t, rfl⟩ := hp
  cases l with
  | nil => exact absurd rfl hne
  | cons c r => simp

theorem jsTrimList_prefix (m : List Char) :
    jsTrimList (m.dropWhile Char.isWhitespace) ⊆ m ∧
    jsTrimList m <+: m.dropWhile Char.isWhitespace := by
  constructor
  · intro c hc
    unfold jsTrimList at hc
    rw [List.mem_reverse] at hc
    have h1 := (List.dropWhile_suffix Char.isWhitespace
      (l := ((m.dropWhile Char.isWhitespace).dropWhile Char.isWhitespace).reverse)).subset hc
    rw [List.mem_reverse] at h1
    exact (List.dropWhile_suffix Char.isWhitespace).subset
      ((List.dropWhile_suffix Char.isWhitespace).subset h1)
  · unfold jsTrimList
    rw [← List.reverse_suffix]
    simp only [List.reverse_reverse]
    exact List.dropWhile_suffix Char.isWhitespace

theorem jsTrimList_props (m : List Char) (hnd : noDbl m = true)
    (hws : ∀ c ∈ m, c.isWhitespace = true → c = ' ') :
    noDbl (jsTrimList m) = true ∧
    (jsTrimList m).head? ≠ some ' ' ∧
    (jsTrimList m).getLast? ≠ some ' ' ∧
    (∀ c ∈ jsTrimList m, c.isWhitespace = true → c = ' ') := by
  have hpre : jsTrimList m <+: m.dropWhile Char.isWhitespace := by
    unfold jsTrimList
    rw [← List.reverse_suffix]
    simp only [List.reverse_reverse]
    exact List.dropWhile_suffix Char.isWhitespace
  have hsuf : m.dropWhile Char.isWhitespace <:+ m := List.dropWhile_suffix _
  have hnd1 : noDbl (m.dropWhile Char.isWhitespace) = true := by
    obtain ⟨pre, hpre'⟩ := hsuf
    have h0 : noDbl (pre ++ m.dropWhile Char.isWhitespace) = true := by
      rw [hpre']; exact hnd
    exact noDbl_suffix pre _ h0
  have hnd2 : noDbl (jsTrimList m) = true := by
    obtain ⟨post, hpost⟩ := hpre
    have h0 : noDbl (jsTrimList m ++ post) = true := by
      rw [hpost]; exact hnd1
    exact noDbl_prefix _ post h0
  have hsubm : jsTrimList m ⊆ m := fun c hc =>
    hsuf.subset (hpre.subset hc)
  refine ⟨hnd2, ?_, ?_, fun c hc hw => hws c (hsubm hc) hw⟩
  · by_cases hne : jsTrimList m = []
    · rw [hne]; simp
    · rw [prefix_head _ _ hpre hne]
      intro h
      have := dropWhile_head_not Char.isWhitespace m ' ' h
      simp at this
  · unfold jsTrimList
    rw [List.getLast?_reverse]
    intro h
    have := dropWhile_head_not Char.isWhitespace
      (m.dropWhile Char.isWhitespace).reverse ' ' h
    simp at this

theorem jsSplitSpace_ne_nil : ∀ l : List Char, jsSplitSpace l ≠ [] := by
  intro l
  cases l with
  | nil => simp [jsSplitSpace]
  | cons c t =>
    cases h : jsSplitSpace t with
    | nil => simp [jsSplitSpace, h]
    | cons p ps =>
      simp only [jsSplitSpace, h]
      by_cases hc : c = ' ' <;> simp [hc]

theorem splitWs_agree : ∀ l : List Char,
    (∀ c ∈ l, c.isWhitespace = true → c = ' ') → splitWsList l = jsSplitSpace l := by
  intro l
  induction l with
  | nil => intro _; rfl
  | cons c t ih =>
    intro hws
    have hrec : splitWsList t = jsSplitSpace t :=
      ih (fun d hd => hws d (List.mem_cons_of_mem c hd))
    cases h : jsSplitSpace t with
    | nil => exact absurd h (jsSplitSpace_ne_nil t)
    | cons p ps =>
      simp only [splitWsList, jsSplitSpace, hrec, h]
      by_cases hc : c = ' '
      · have hwc : c.isWhitespace = true := by subst hc; decide
        rw [if_pos hwc, if_pos hc]
      · have hwc : c.isWhitespace = false := by
          by_cases hw : c.isWhitespace
          · exact absurd (hws c (List.mem_cons_self c t) hw) hc
          · simpa using hw
        rw [hwc]
        simp only [Bool.false_eq_true, if_false, if_neg hc]

theorem jsSplitSpace_cons_eq (c : Char) (t p : List Char) (ps : List (List Char))
    (h : jsSplitSpace t = p :: ps) :
    jsSplitSpace (c :: t) = if c = ' ' then [] :: p :: ps else (c :: p) :: ps := by
  conv_lhs => rw [jsSplitSpace.eq_def]
  dsimp only
  rw [h]

theorem no_empty_chunk : ∀ (n : Nat) (l : List Char), l.length ≤ n → l ≠ [] →
    noDbl l = true → l.head? ≠ some ' ' → l.getLast? ≠ some ' ' →
    [] ∉ jsSplitSpace l := by
  intro n
  induction n with
  | zero =>
    intro l hl hne _ _ _
    cases l with
    | nil => exact absurd rfl hne
    | cons c t => simp at hl
  | succ n ih =>
    intro l hl hne hnd hhead hlast
    cases l with
    | nil => exact absurd rfl hne
    | cons c t =>
      have hc : c ≠ ' ' := by
        intro h; subst h; exact hhead (by simp)
      cases t with
      | nil =>
        intro hmem
        simp [jsSplitSpace, hc] at hmem
      | cons d t' =>
        by_cases hd : d = ' '
        · subst hd
          cases t' with
          | nil => exact absurd (by simp) hlast
          | cons e t'' =>
            obtain ⟨p, ps, hps⟩ : ∃ p ps, jsSplitSpace (e :: t'') = p :: ps := by
              cases h : jsSplitSpace (e :: t'') with
              | nil => exact absurd h (jsSplitSpace_ne_nil (e :: t''))
              | cons p ps => exact ⟨p, ps, rfl⟩
            have hjs : jsSplitSpace (c :: ' ' :: e :: t'') = (c :: ([] : List Char)) :: p :: ps := by
              have hmid : jsSplitSpace (' ' :: e :: t'') = ([] : List Char) :: p :: ps := by
                rw [jsSplitSpace_cons_eq ' ' (e :: t'') p ps hps]
                simp
              rw [jsSplitSpace_cons_eq c (' ' :: e :: t'') [] (p :: ps) hmid]
              simp [hc]
            intro hmem
            rw [hjs] at hmem
            rcases List.mem_cons.mp hmem with h | h
            · simp at h
            · have hmem' : [] ∈ jsSplitSpace (e :: t'') := by rw [hps]; exact h
              have he : e ≠ ' ' := by
                have := ((noDbl_cons ' ' (e :: t'')).mp (noDbl_tail c _ hnd)).1
                exact this e (by simp) rfl
              refine ih (e :: t'') ?_ (by simp) ?_ ?_ ?_ hmem'
              · simp only [List.length_cons] at hl ⊢; omega
              · exact noDbl_tail ' ' _ (noDbl_tail c _ hnd)
              · simpa using he
              · have hlast' : (c :: ' ' :: e :: t'').getLast? = (e :: t'').getLast? := by
                  rw [List.getLast?_cons_cons, List.getLast?_cons_cons]
                rw [← hlast']
                exact hlast
        · obtain ⟨p, ps, hps⟩ : ∃ p ps, jsSplitSpace (d :: t') = p :: ps := by
            cases h : jsSplitSpace (d :: t') with
            | nil => exact absurd h (jsSplitSpace_ne_nil (d :: t'))
            | cons p ps => exact ⟨p, ps, rfl⟩
          have hjs : jsSplitSpace (c :: d :: t') = (c :: p) :: ps := by
            rw [jsSplitSpace_cons_eq c (d :: t') p ps hps]
            simp [hc]
          intro hmem
          rw [hjs] at hmem
          rcases List.mem_cons.mp hmem with h | h
          · simp at h
          · have hmem' : [] ∈ jsSplitSpace (d :: t') := by
              rw [hps]; exact List.mem_cons_of_mem p h
            refine ih (d :: t') ?_ (by simp) ?_ ?_ ?_ hmem'
            · simp only [List.length_cons] at hl ⊢; omega
            · exact noDbl_tail c _ hnd
            · simpa using hd
            · rw [← List.getLast?_cons_cons (a := c)]
              exact hlast

theorem normalize_wordCount (l : List Char) :
    (normalizeWsList l = [] → (jsSplitSpace (normalizeWsList l)).length = 1) ∧
    (normalizeWsList l ≠ [] →
      (jsSplitSpace (normalizeWsList l)).length
        = ((splitWsList (normalizeWsList l)).filter (fun c => c ≠ [])).length) := by
  have hcol := collapseWsAux_noDbl l
  have hws : ∀ c ∈ collapseWsList l, c.isWhitespace = true → c = ' ' :=
    fun c hc => collapseWsAux_ws l false c hc
  have hprops := jsTrimList_props (collapseWsList l) hcol.1 hws
  constructor
  · intro h; rw [h]; rfl
  · intro hne
    simp only [normalizeWsList] at hne ⊢
    have hnotmem : [] ∉ jsSplitSpace (jsTrimList (collapseWsList l)) :=
      no_empty_chunk (jsTrimList (collapseWsList l)).length
        (jsTrimList (collapseWsList l)) le_rfl hne
        hprops.1 hprops.2.1 hprops.2.2.1
    rw [splitWs_agree _ hprops.2.2.2]
    have hfilter : (jsSplitSpace (jsTrimList (collapseWsList l))).filter
        (fun c => decide (c ≠ []))
        = jsSplitSpace (jsTrimList (collapseWsList l)) := by
      rw [List.filter_eq_self]
      intro a ha
      simp only [decide_eq_true_eq]
      intro h0
      exact hnotmem (h0 ▸ ha)
    rw [hfilter]

/-- Amended claim C8: for every successfully parsed page, `wordCount` is the
number of parts of the cleaned text split at single spaces; when the
cleaned text is nonempty this equals the whitespace-split token count, but
the empty cleaned text gets `wordCount = 1` (JavaScript `''.split(' ')` is
`['']`), not 0. -/
theorem scrapePage_wordCount_tokens (web : String → Except String HttpResponse)
    (url : String) (depth : Nat) (domain category : String) (r : ScrapedPage)
    (h : scrapePage web url depth domain category = some r) :
    (r.content = "" → r.wordCount = 1) ∧
    (r.content ≠ "" → r.wordCount = specTokenCount r.content) := by
  unfold scrapePage at h
  cases hw : web url with
  | error e => rw [hw] at h; simp at h
  | ok resp =>
    rw [hw] at h
    by_cases hok : resp.ok
    · simp only [if_pos hok, Option.some.injEq] at h
      subst h
      constructor
      · intro hc
        have hcl : normalizeWsList resp.raw.contentText.toList = [] := by
          simpa using congrArg String.data hc
        show (jsSplitSpace (normalizeWsList resp.raw.contentText.toList)).length = 1
        rw [hcl]
        rfl
      · intro hc
        have hcl : normalizeWsList resp.raw.contentText.toList ≠ [] := by
          intro h0
          apply hc
          show String.mk (normalizeWsList resp.raw.contentText.toList) = ""
          rw [h0]
        have hmain := (normalize_wordCount resp.raw.contentText.toList).2 hcl
        show (jsSplitSpace (normalizeWsList resp.raw.contentText.toList)).length
          = specTokenCount (String.mk (normalizeWsList resp.raw.contentText.toList))
        rw [hmain]
        rfl
    · simp [hok] at h

/-- Witness for the amended C8 on the concrete page `a` of `web1`. -/
def pageA : ScrapedPage :=
  { url := "https://ex.test/a", title := "A", content := "a page", wordCount := 2
    depth := 0, category := "CatA", links := ["https://evil.com/?ref=ex.test"]
    images := [] }

theorem scrapePage_wordCount_tokens_witness :
    pageA.content ≠ "" ∧ pageA.wordCount = specTokenCount pageA.content :=
  ⟨by decide, (scrapePage_wordCount_tokens web1 "https://ex.test/a" 0 "ex.test"
    "CatA" pageA (by decide)).2 (by decide)⟩
